import Mathlib

/-!
Verification development for the contentful-upload-react batch uploader.

The development shallowly embeds the upload engine of the repository:

* the zustand store (`useAppStore`): `addFiles`, `updateFileStatus` and
  `getEstimatedCompletionTime`;
* the rate-limit interceptor (`RateLimitInterceptor` in
  `contentfulService.ts`): the increment paths of its network and console
  hooks, together with the two resets (`resetRateLimitCount` at the start
  of a run, `clearFiles`);
* the concurrent upload orchestration of `FileDropzone.tsx`: the
  `Semaphore` class, `uploadFileWithSemaphore`, `handleCancel` and the
  run-restart portion of `handleUpload`, as a small-step transition system
  over an explicit run state.

JavaScript numbers are modelled as `Nat` (counters, byte sizes) and `Rat`
(speeds and times inside the estimator, which divides).  The event-loop
execution model of the browser is modelled by taking every synchronous
block between two `await` suspension points as one atomic step of the
transition system; user events (the cancel click) and network completions
interleave only between such blocks.
-/

namespace ContentfulUpload

/-- Status of one upload task, from the `UploadFile` union type of
`useAppStore.ts`. -/
inductive Status where
  | pending
  | processing
  | completed
  | failed
  | cancelled
deriving DecidableEq, Repr

/-- The identity-relevant part of a browser `File` object: the four fields
that `addFiles` in `useAppStore.ts` reads to build a task id. -/
structure RawFile where
  name : String
  size : Nat
  lastModified : Nat
  fileType : String
deriving DecidableEq, Repr

/-- The id template from `addFiles`:
`file.name + "-" + file.size + "-" + file.lastModified + "-" + file.type`. -/
def fileKey (f : RawFile) : String :=
  f.name ++ "-" ++ toString f.size ++ "-" ++ toString f.lastModified ++ "-" ++ f.fileType

/-- One entry of the store `files` array (interface `UploadFile` of
`useAppStore.ts`).  Timestamps and speeds are rationals because the
estimator divides them. -/
structure UploadFile where
  id : String
  file : RawFile
  status : Status
  progress : Nat
  error : Option String := none
  assetId : Option String := none
  assetUrl : Option String := none
  contentfulUrl : Option String := none
  startTime : Option Rat := none
  endTime : Option Rat := none
  estimatedTimeRemaining : Option Rat := none
  uploadSpeed : Option Rat := none
deriving DecidableEq, Repr

/-- A `Partial<UploadFile>`: every key optional, keys present override the
old entry, exactly as the object spread `{ ...f, ...updates }` does.  For a
field that is itself optional in `UploadFile` the outer `Option` records
whether the key is present in the update object. -/
structure FileUpdates where
  id : Option String := none
  file : Option RawFile := none
  status : Option Status := none
  progress : Option Nat := none
  error : Option (Option String) := none
  assetId : Option (Option String) := none
  assetUrl : Option (Option String) := none
  contentfulUrl : Option (Option String) := none
  startTime : Option (Option Rat) := none
  endTime : Option (Option Rat) := none
  estimatedTimeRemaining : Option (Option Rat) := none
  uploadSpeed : Option (Option Rat) := none
deriving DecidableEq, Repr

/-- The object spread `{ ...f, ...updates }` used by `updateFileStatus`. -/
def applyUpdates (f : UploadFile) (u : FileUpdates) : UploadFile where
  id := u.id.getD f.id
  file := u.file.getD f.file
  status := u.status.getD f.status
  progress := u.progress.getD f.progress
  error := u.error.getD f.error
  assetId := u.assetId.getD f.assetId
  assetUrl := u.assetUrl.getD f.assetUrl
  contentfulUrl := u.contentfulUrl.getD f.contentfulUrl
  startTime := u.startTime.getD f.startTime
  endTime := u.endTime.getD f.endTime
  estimatedTimeRemaining := u.estimatedTimeRemaining.getD f.estimatedTimeRemaining
  uploadSpeed := u.uploadSpeed.getD f.uploadSpeed

/-- `updateFileStatus` of `useAppStore.ts`:
`files.map(f => f.id === id ? { ...f, ...updates } : f)`. -/
def updateFileStatus (files : List UploadFile) (id : String) (u : FileUpdates) :
    List UploadFile :=
  files.map fun f => if f.id = id then applyUpdates f u else f

/-- The fresh task built by `addFiles` for a newly selected file. -/
def newUploadFile (f : RawFile) : UploadFile where
  id := fileKey f
  file := f
  status := .pending
  progress := 0

/-- `addFiles` of `useAppStore.ts`: the ids already in the store are
collected once, the incoming files are filtered against that set only, and
the survivors are appended. -/
def addFiles (files : List UploadFile) (newFiles : List RawFile) :
    List UploadFile :=
  let existingIds := files.map fun f => f.id
  let uniqueFiles := newFiles.filter fun f => ¬ existingIds.contains (fileKey f)
  files ++ uniqueFiles.map newUploadFile

/-! ## Progress and ETA estimator

`getEstimatedCompletionTime` of `useAppStore.ts`, decomposed into the
intermediate quantities the code computes so that theorems can speak about
each of them.  All times are milliseconds, all sizes bytes, matching the
source (`Date.now()` timestamps, `file.size`). -/

/-- The filter of the source:
`f.status === 'completed' && f.startTime && f.endTime`. -/
def isCompletedWithTimes (f : UploadFile) : Bool :=
  f.status = .completed ∧ f.startTime ≠ none ∧ f.endTime ≠ none

/-- `file.file.size / (file.endTime! - file.startTime!)` in bytes per
millisecond. -/
def fileSpeed (f : UploadFile) : Rat :=
  (f.file.size : Rat) / (f.endTime.getD 0 - f.startTime.getD 0)

/-- The weighted-average loop of the source, run over `completedFiles` in
the order they appear in the `files` array: the entry at index `index`
receives weight `completedFiles.length - index`, so the FIRST entry of the
array gets the largest weight. -/
def weightedAvgSpeed (completedFiles : List UploadFile) : Rat :=
  let weightedSpeed :=
    (completedFiles.enum.map fun p =>
      fileSpeed p.2 * ((completedFiles.length - p.1 : Nat) : Rat)).sum
  let totalWeight :=
    (completedFiles.enum.map fun p =>
      ((completedFiles.length - p.1 : Nat) : Rat)).sum
  weightedSpeed / totalWeight

/-- The recency weighting in the words of the specification, for a list of
completed tasks given in completion order, earliest first: the task at
position `i` receives weight `i + 1`, so the earliest completed task has
weight 1 and the most recently completed task has the highest weight
(the number of completed tasks). -/
def weightedAvgSpeedSpecRecency (orderedByCompletion : List UploadFile) : Rat :=
  let weightedSpeed :=
    (orderedByCompletion.enum.map fun p =>
      fileSpeed p.2 * ((p.1 + 1 : Nat) : Rat)).sum
  let totalWeight :=
    (orderedByCompletion.enum.map fun p => ((p.1 + 1 : Nat) : Rat)).sum
  weightedSpeed / totalWeight

/-- `Math.min(state.parallelCount * 0.8, 1.0)` from the source. -/
def efficiencyFactor (parallelCount : Rat) : Rat :=
  min (parallelCount * (4 / 5)) 1

/-- The slice of store state that `getEstimatedCompletionTime` reads. -/
structure EstimatorState where
  files : List UploadFile
  uploadStartTime : Option Rat
  isUploading : Bool
  parallelCount : Nat
deriving DecidableEq, Repr

/-- `getEstimatedCompletionTime` of `useAppStore.ts`.  `now` stands for the
`Date.now()` call inside the function. -/
def getEstimatedCompletionTime (s : EstimatorState) (now : Rat) : Option Rat :=
  if s.uploadStartTime = none ∨ s.isUploading = false then none
  else
    let completedFiles := s.files.filter isCompletedWithTimes
    if completedFiles.length = 0 then none
    else
      let avgSpeed := weightedAvgSpeed completedFiles
      let remainingFiles :=
        s.files.filter fun f => f.status = .pending ∨ f.status = .processing
      let remainingBytes : Nat := (remainingFiles.map fun f => f.file.size).sum
      let eff := efficiencyFactor (s.parallelCount : Rat)
      let estimatedTimeRemaining :=
        (remainingBytes : Rat) / (avgSpeed * (s.parallelCount : Rat) * eff)
      some (now + estimatedTimeRemaining)

/-! ## Rate-limit signal bus

The counter lives in the store (`rateLimitCount`).  Its only writers are
`incrementRateLimit`, `resetRateLimitCount` (called by `handleUpload` at
the start of a run) and `clearFiles` (which also sets it to 0).  The
increments are issued by the hooks installed by `RateLimitInterceptor` in
`contentfulService.ts`; the model below transcribes each listener body and
then describes which listeners one observable event fires. -/

/-- `incrementRateLimit` of the store. -/
def incrementRateLimit (c : Nat) : Nat := c + 1

/-- The `load` listener added by `interceptXMLHttpRequest`:
`if (this.status === 429) incrementRateLimit()`. -/
def xhrLoadIncrement (c : Nat) (status : Nat) : Nat :=
  if status = 429 then incrementRateLimit c else c

/-- The `error` listener added by `interceptXMLHttpRequest`:
`if (this.status === 429) incrementRateLimit()`. -/
def xhrErrorIncrement (c : Nat) (status : Nat) : Nat :=
  if status = 429 then incrementRateLimit c else c

/-- The `readystatechange` listener added by `interceptXMLHttpRequest`:
`if (this.readyState === 4 && this.status === 429) incrementRateLimit()`. -/
def xhrReadyStateIncrement (c : Nat) (readyState status : Nat) : Nat :=
  if readyState = 4 ∧ status = 429 then incrementRateLimit c else c

/-- The wrapped `window.fetch` of `interceptFetch`:
`if (response.status === 429) incrementRateLimit()`. -/
def fetchIncrement (c : Nat) (status : Nat) : Nat :=
  if status = 429 then incrementRateLimit c else c

/-- The wrapped `console.error`: the outermost wrapper (installed by
`interceptConsoleAggressively`) increments once and returns without
calling through when the message matches the rate-limit vocabulary. -/
def consoleErrorIncrement (c : Nat) (matchesRateLimit : Bool) : Nat :=
  if matchesRateLimit then incrementRateLimit c else c

/-- Observable events that drive the counter.  `xhrResponse status` is one
XMLHttpRequest that received a complete response: per DOM semantics it
fires the `readystatechange` listener with `readyState = 4` and then the
`load` listener, both registered by `interceptXMLHttpRequest.send`.
`runStart` is `resetRateLimitCount()` in `handleUpload`; `clearAll` is
`clearFiles` of the store, whose `set` also writes `rateLimitCount: 0`. -/
inductive RlEvent where
  | xhrResponse (status : Nat)
  | fetchResponse (status : Nat)
  | consoleError (matchesRateLimit : Bool)
  | runStart
  | clearAll
deriving DecidableEq, Repr

/-- Effect of one observable event on `rateLimitCount`. -/
def rlStep (c : Nat) : RlEvent → Nat
  | .xhrResponse status => xhrLoadIncrement (xhrReadyStateIncrement c 4 status) status
  | .fetchResponse status => fetchIncrement c status
  | .consoleError m => consoleErrorIncrement c m
  | .runStart => 0
  | .clearAll => 0

/-! ## Concurrent upload orchestration

Small-step model of `FileDropzone.tsx`: the `Semaphore` class,
`uploadFileWithSemaphore`, `handleCancel`, and the part of `handleUpload`
that starts a run (fresh `AbortController`, fresh `Semaphore`, one task per
still-`pending` file).

Atomicity.  JavaScript is single threaded: every synchronous block between
two `await` suspension points runs without interleaving, so each such
block is one step of the model.  In particular the cancelled-check right
after `semaphore.acquire()` returns and the write of `processing` happen
in one step, and the continuation that runs when a remote call settles --
its checkpoint, progress callback, result handling in
`uploadFileWithSemaphore` and the `finally` release -- is likewise one
step.  A user click (`handleCancel`) and a network completion are separate
macrotasks and interleave only between blocks.

The four cancellation checkpoints inside `ContentfulService.uploadFile`
(before creating the remote asset, after creating it, after processing
it, after publishing it) belong to the current, signal-aware version of
`uploadFile`, whose source is not in the repository snapshot (the snapshot
holds two older versions without the `signal` parameter, which supply the
remote-step order create, process, publish and the progress milestones
10, 50, 80, 100).  Those checkpoints are modelled from the spec: a
checkpoint that observes the signalled token throws a cancellation error,
which the catch block of `uploadFileWithSemaphore` (which IS in the
snapshot) turns into `status: cancelled` with a stamped `endTime`.

A task is a coroutine with a program counter: -/

/-- Program counter of one `uploadFileWithSemaphore` invocation.
`awaiting k` means remote call `k` is in flight (0 = create-asset,
1 = process-asset, 2 = publish-asset).  `queued` means the task sits in
the semaphore waiting list; `granted` means `release` handed it a permit
but its continuation has not run yet; `done` means its promise resolved. -/
inductive PC where
  | start
  | queued
  | granted
  | awaiting (k : Nat)
  | done
deriving DecidableEq, Repr

/-- One task: the store record fields that the orchestration writes, plus
the program counter.  Times use the step counter of the run state as a
clock. -/
structure Task where
  status : Status
  progress : Nat
  startTime : Option Nat := none
  endTime : Option Nat := none
  error : Option String := none
  pc : PC
deriving DecidableEq, Repr

/-- State of one run: the abort token (`controller.signal.aborted`), the
semaphore (`permits` and the FIFO `waiting` list, holding task indices),
the tasks, and a step-counter clock standing for `Date.now()`. -/
structure RunState where
  token : Bool
  permits : Nat
  waiting : List Nat
  tasks : List Task
  clock : Nat
deriving DecidableEq, Repr

/-- Update the task at index `i` if it exists. -/
def modifyTask (ts : List Task) (i : Nat) (f : Task → Task) : List Task :=
  match ts[i]? with
  | some t => ts.set i (f t)
  | none => ts

/-- `Semaphore.release`: `permits++`; if a waiter exists, pop the
longest-waiting one, `permits--`, and resolve its acquire promise (the
woken task becomes `granted`; its continuation runs at a later step). -/
def release (s : RunState) : RunState :=
  match s.waiting with
  | [] => { s with permits := s.permits + 1 }
  | j :: rest =>
      { s with waiting := rest, tasks := modifyTask s.tasks j fun t => { t with pc := .granted } }

/-- The synchronous block of `uploadFileWithSemaphore` that runs when
`acquire()` resolves, for a task that holds a permit: if the token is
already signalled, mark the task `cancelled` and return (the `finally`
releases the permit); otherwise write `processing`, `progress: 0`,
`startTime`, enter `uploadFile` (whose before-create checkpoint sees the
same unsignalled token), report `onProgress(10)`, and start the
create-asset call. -/
def runBody (s : RunState) (i : Nat) : RunState :=
  if s.token then
    release { s with
      tasks := modifyTask s.tasks i fun t => { t with status := .cancelled, pc := .done } }
  else
    { s with
      tasks := modifyTask s.tasks i fun t =>
        { t with status := .processing, progress := 10,
                 startTime := some s.clock, pc := .awaiting 0 } }

/-- The progress milestone reported after remote call `k` succeeds:
`onProgress(50)` after create, `onProgress(80)` after process. -/
def milestone (k : Nat) : Nat := if k = 0 then 50 else 80

/-- Events the scheduler can fire.  `acquire i` is the start of
`uploadFileWithSemaphore` for task `i` (the `await semaphore.acquire()`
call); `wake i` runs the continuation of a task the semaphore has granted
a permit to; `remote i ok` is the settling of the in-flight remote call of
task `i` (with `ok = false` for a rejection) together with the synchronous
continuation that follows it; `cancel` is `handleCancel`; `startRun` is a
new run started by `handleUpload` once no task of the previous run is
still active. -/
inductive Event where
  | acquire (i : Nat)
  | wake (i : Nat)
  | remote (i : Nat) (ok : Bool)
  | cancel
  | startRun
deriving DecidableEq, Repr

/-- The continuation that runs when remote call `k` of task `i` settles.
With the token signalled: on success the next checkpoint observes the
token, throws, and the catch block of `uploadFileWithSemaphore` writes
`cancelled` with `endTime`; on rejection `uploadFile` catches the error
and returns a failure result, and the cancelled-check after the `await`
writes `cancelled` (without `endTime`).  With the token clear: success on
the last call publishes -- `onProgress(100)`, `completed`, `progress:
100`, `endTime`; success earlier reports the milestone and starts the next
call; rejection is returned as a failure result and recorded as `failed`
with `endTime` and the error message.  Every path that ends the task
releases the permit in `finally`. -/
def remoteSettled (s : RunState) (i : Nat) (k : Nat) (ok : Bool) : RunState :=
  if s.token then
    if ok then
      release { s with
        tasks := modifyTask s.tasks i fun t =>
          { t with status := .cancelled, endTime := some s.clock, pc := .done } }
    else
      release { s with
        tasks := modifyTask s.tasks i fun t => { t with status := .cancelled, pc := .done } }
  else
    if ok then
      if k < 2 then
        { s with
          tasks := modifyTask s.tasks i fun t =>
            { t with progress := milestone k, pc := .awaiting (k + 1) } }
      else
        release { s with
          tasks := modifyTask s.tasks i fun t =>
            { t with status := .completed, progress := 100,
                     endTime := some s.clock, pc := .done } }
    else
      release { s with
        tasks := modifyTask s.tasks i fun t =>
          { t with status := .failed, endTime := some s.clock,
                   error := some "Upload failed", pc := .done } }

/-- One step of the model, parametrised by the configured parallelism `N`
(the capacity `handleUpload` passes to `new Semaphore(parallelCount)`). -/
def step (N : Nat) (s : RunState) : Event → RunState
  | .acquire i =>
      let s2 : RunState :=
        match s.tasks[i]? with
        | some t =>
            if t.pc = .start then
              if 0 < s.permits then
                runBody { s with permits := s.permits - 1,
                                 tasks := modifyTask s.tasks i fun u => { u with pc := .granted } } i
              else
                { s with waiting := s.waiting ++ [i],
                         tasks := modifyTask s.tasks i fun u => { u with pc := .queued } }
            else s
        | none => s
      { s2 with clock := s.clock + 1 }
  | .wake i =>
      let s2 : RunState :=
        match s.tasks[i]? with
        | some t => if t.pc = .granted then runBody s i else s
        | none => s
      { s2 with clock := s.clock + 1 }
  | .remote i ok =>
      let s2 : RunState :=
        match s.tasks[i]? with
        | some t =>
            match t.pc with
            | .awaiting k => remoteSettled s i k ok
            | _ => s
        | none => s
      { s2 with clock := s.clock + 1 }
  | .cancel =>
      { s with token := true,
               tasks := s.tasks.map fun t =>
                 if t.status = .processing then { t with status := .cancelled } else t,
               clock := s.clock + 1 }
  | .startRun =>
      let s2 : RunState :=
        if s.tasks.all fun t => t.pc = .done then
          { s with token := false, permits := N, waiting := [],
                   tasks := s.tasks.map fun t =>
                     if t.status = .pending then { t with pc := .start } else t }
        else s
      { s2 with clock := s.clock + 1 }

/-- Run of the model: fold a schedule of events over a state. -/
def run (N : Nat) (s : RunState) (es : List Event) : RunState :=
  es.foldl (step N) s

/-- Initial state: `n` freshly added files (all `pending`, from
`addFiles`), no run active yet, a gate of capacity `N`. -/
def init (N n : Nat) : RunState where
  token := false
  permits := N
  waiting := []
  tasks := List.replicate n { status := .pending, progress := 0, pc := .done }
  clock := 0

/-- Status of the task at index `i` of a task list, defaulting for an
out-of-range index. -/
def statusOf (ts : List Task) (i : Nat) : Status :=
  match ts[i]? with
  | some t => t.status
  | none => .pending

/-- Status of task `i`. -/
def statusAt (s : RunState) (i : Nat) : Status :=
  statusOf s.tasks i

/-- Program counter of the task at index `i` of a task list. -/
def pcOf (ts : List Task) (i : Nat) : PC :=
  match ts[i]? with
  | some t => t.pc
  | none => .done

/-- Program counter of task `i`. -/
def pcAt (s : RunState) (i : Nat) : PC :=
  pcOf s.tasks i

/-- Progress of the task at index `i` of a task list. -/
def progressOf (ts : List Task) (i : Nat) : Nat :=
  match ts[i]? with
  | some t => t.progress
  | none => 0

/-- Progress of task `i`. -/
def progressAt (s : RunState) (i : Nat) : Nat :=
  progressOf s.tasks i

/-- End time of the task at index `i` of a task list. -/
def endTimeOf (ts : List Task) (i : Nat) : Option Nat :=
  match ts[i]? with
  | some t => t.endTime
  | none => none

/-- End time of task `i`. -/
def endTimeAt (s : RunState) (i : Nat) : Option Nat :=
  endTimeOf s.tasks i

/-- Error text of the task at index `i` of a task list. -/
def errorOf (ts : List Task) (i : Nat) : Option String :=
  match ts[i]? with
  | some t => t.error
  | none => none

/-- Error text of task `i`. -/
def errorAt (s : RunState) (i : Nat) : Option String :=
  errorOf s.tasks i

/-- The store-visible fields of the task at index `i` (everything except
the program counter): status, progress, start time, end time, error. -/
def fileViewOf (ts : List Task) (i : Nat) :
    Status × Nat × Option Nat × Option Nat × Option String :=
  match ts[i]? with
  | some t => (t.status, t.progress, t.startTime, t.endTime, t.error)
  | none => (.pending, 0, none, none, none)

/-- The store-visible fields of task `i`. -/
def fileView (s : RunState) (i : Nat) :
    Status × Nat × Option Nat × Option Nat × Option String :=
  fileViewOf s.tasks i

/-- A permit is held by a task that has been granted one and has not yet
reached its `finally` release: `granted` or any `awaiting` state. -/
def holdsPermit : PC → Bool
  | .granted => true
  | .awaiting _ => true
  | _ => false

/-- Number of tasks currently holding a permit. -/
def countHold (s : RunState) : Nat :=
  s.tasks.countP fun t => holdsPermit t.pc

/-- Terminal statuses. -/
def isTerminalStatus : Status → Bool
  | .completed => true
  | .failed => true
  | .cancelled => true
  | _ => false

/-! ## Basic lemmas about the model -/

theorem length_modifyTask (ts : List Task) (i : Nat) (f : Task → Task) :
    (modifyTask ts i f).length = ts.length := by
  unfold modifyTask
  cases h : ts[i]? <;> simp

theorem getElem?_modifyTask_self {ts : List Task} {i : Nat} {t : Task} (f : Task → Task)
    (h : ts[i]? = some t) : (modifyTask ts i f)[i]? = some (f t) := by
  obtain ⟨hlen, _⟩ := List.getElem?_eq_some.mp h
  unfold modifyTask
  rw [h, List.getElem?_set_self hlen]

theorem getElem?_modifyTask_ne {i j : Nat} (ts : List Task) (f : Task → Task)
    (h : i ≠ j) : (modifyTask ts i f)[j]? = ts[j]? := by
  unfold modifyTask
  cases hm : ts[i]? with
  | none => rfl
  | some t => exact List.getElem?_set_ne h

theorem getElem?_modifyTask_none {ts : List Task} {i : Nat} (f : Task → Task)
    (h : ts[i]? = none) : modifyTask ts i f = ts := by
  unfold modifyTask
  rw [h]

theorem countP_modifyTask (p : Task → Bool) {ts : List Task} {i : Nat} {t : Task}
    (f : Task → Task) (h : ts[i]? = some t) :
    (modifyTask ts i f).countP p + (if p t then 1 else 0)
      = ts.countP p + (if p (f t) then 1 else 0) := by
  obtain ⟨hlen, hget⟩ := List.getElem?_eq_some.mp h
  have hmem : t ∈ ts := by rw [← hget]; exact List.getElem_mem hlen
  unfold modifyTask
  rw [h, List.countP_set p ts i (f t) hlen, hget]
  cases hpt : p t with
  | false => simp [hpt]
  | true =>
      have hpos : 0 < ts.countP p := List.countP_pos_iff.mpr ⟨t, hmem, hpt⟩
      simp only [hpt, if_true]
      omega

theorem mem_modifyTask {ts : List Task} {i : Nat} {f : Task → Task} {t2 : Task}
    (h : t2 ∈ modifyTask ts i f) :
    t2 ∈ ts ∨ ∃ t, ts[i]? = some t ∧ t2 = f t := by
  unfold modifyTask at h
  cases hm : ts[i]? with
  | none => rw [hm] at h; exact Or.inl h
  | some t =>
      rw [hm] at h
      rcases List.mem_or_eq_of_mem_set h with h1 | h1
      · exact Or.inl h1
      · exact Or.inr ⟨t, rfl, h1⟩

/-! ## The run invariant

`InvAux` collects the structural facts about a reachable run state;
together with the permit accounting (`Inv`) they are preserved by every
step.  The permit accounting is the usual semaphore invariant: free
permits plus held permits equal the gate capacity. -/

structure InvAux (s : RunState) : Prop where
  waitMem : ∀ j ∈ s.waiting, ∃ t, s.tasks[j]? = some t ∧ t.pc = PC.queued
  waitNodup : s.waiting.Nodup
  startPending : ∀ t ∈ s.tasks,
      (t.pc = PC.start ∨ t.pc = PC.queued ∨ t.pc = PC.granted) → t.status = Status.pending
  awaitingStatus : ∀ t ∈ s.tasks, ∀ k, t.pc = PC.awaiting k →
      t.status = Status.processing ∨ t.status = Status.cancelled
  processingHolds : ∀ t ∈ s.tasks, t.status = Status.processing → holdsPermit t.pc = true
  cancelledAwaitingToken : ∀ t ∈ s.tasks, t.status = Status.cancelled →
      ∀ k, t.pc = PC.awaiting k → s.token = true
  tokenNoProcessing : s.token = true → ∀ t ∈ s.tasks, t.status ≠ Status.processing

structure Inv (N : Nat) (s : RunState) : Prop where
  aux : InvAux s
  perm : s.permits + countHold s = N

theorem mem_of_lookup {ts : List Task} {j : Nat} {t : Task} (h : ts[j]? = some t) :
    t ∈ ts := by
  obtain ⟨hl, hg⟩ := List.getElem?_eq_some.mp h
  rw [← hg]
  exact List.getElem_mem hl

theorem countHold_modify {ts : List Task} {i : Nat} {t : Task} (f : Task → Task)
    (h : ts[i]? = some t) (n1 n2 : Nat)
    (h1 : (if holdsPermit t.pc then 1 else 0) = n1)
    (h2 : (if holdsPermit (f t).pc then 1 else 0) = n2) :
    (modifyTask ts i f).countP (fun u => holdsPermit u.pc) + n1
      = ts.countP (fun u => holdsPermit u.pc) + n2 := by
  have hc := countP_modifyTask (fun u => holdsPermit u.pc) f h
  simp only [] at hc
  rw [h1, h2] at hc
  exact hc

theorem inv_release {s : RunState} (h : InvAux s) :
    InvAux (release s)
    ∧ (release s).permits + countHold (release s) = s.permits + countHold s + 1 := by
  unfold release
  cases hw : s.waiting with
  | nil =>
      refine ⟨⟨?_, ?_, ?_, ?_, ?_, ?_, ?_⟩, ?_⟩ <;> simp [countHold]
      · exact h.startPending
      · exact h.awaitingStatus
      · exact h.processingHolds
      · exact h.cancelledAwaitingToken
      · exact h.tokenNoProcessing
      · omega
  | cons j rest =>
      obtain ⟨t, hj, hpc⟩ := h.waitMem j (by rw [hw]; exact List.mem_cons_self j rest)
      have hmem : t ∈ s.tasks := mem_of_lookup hj
      have hpend : t.status = Status.pending :=
        h.startPending t hmem (Or.inr (Or.inl hpc))
      have hnodup := h.waitNodup
      rw [hw] at hnodup
      constructor
      · constructor
        · -- waitMem for the remaining waiters
          intro j2 hj2
          simp only at hj2
          have hne : j2 ≠ j := by
            intro hEq
            subst hEq
            exact (List.nodup_cons.mp hnodup).1 hj2
          obtain ⟨t2, ht2, hpc2⟩ := h.waitMem j2 (by rw [hw]; exact List.mem_cons_of_mem j hj2)
          refine ⟨t2, ?_, hpc2⟩
          simpa [getElem?_modifyTask_ne s.tasks _ (fun hEq => hne hEq.symm)] using ht2
        · exact (List.nodup_cons.mp hnodup).2
        · intro t2 ht2 hpcs
          rcases mem_modifyTask ht2 with hm | ⟨t0, ht0, rfl⟩
          · exact h.startPending t2 hm hpcs
          · have ht0t : t0 = t := by
              rw [ht0] at hj
              exact Option.some.inj hj
            subst ht0t
            simpa using hpend
        · intro t2 ht2 k hk
          rcases mem_modifyTask ht2 with hm | ⟨t0, ht0, rfl⟩
          · exact h.awaitingStatus t2 hm k hk
          · simp at hk
        · intro t2 ht2 hst
          rcases mem_modifyTask ht2 with hm | ⟨t0, ht0, rfl⟩
          · exact h.processingHolds t2 hm hst
          · simp [holdsPermit]
        · intro t2 ht2 hst k hk
          rcases mem_modifyTask ht2 with hm | ⟨t0, ht0, rfl⟩
          · exact h.cancelledAwaitingToken t2 hm hst k hk
          · simp at hk
        · intro htok t2 ht2
          rcases mem_modifyTask ht2 with hm | ⟨t0, ht0, rfl⟩
          · exact h.tokenNoProcessing htok t2 hm
          · have ht0t : t0 = t := by
              rw [ht0] at hj
              exact Option.some.inj hj
            subst ht0t
            simp [hpend]
      · -- permit accounting: the popped waiter becomes a holder
        have hcount := countHold_modify (fun u => { u with pc := PC.granted }) hj 0 1
          (by rw [hpc]; rfl) rfl
        simp only [countHold]
        omega

theorem waitMem_modify_notQueued {s : RunState} (h : InvAux s) {i : Nat} {t : Task}
    (hi : s.tasks[i]? = some t) (hq : t.pc ≠ PC.queued) (f : Task → Task) :
    ∀ j ∈ s.waiting, ∃ t2, (modifyTask s.tasks i f)[j]? = some t2 ∧ t2.pc = PC.queued := by
  intro j hj
  obtain ⟨t2, ht2, hpc2⟩ := h.waitMem j hj
  have hne : i ≠ j := by
    intro hEq
    subst hEq
    rw [hi] at ht2
    exact hq (by rw [Option.some.inj ht2]; exact hpc2)
  exact ⟨t2, by rw [getElem?_modifyTask_ne s.tasks f hne]; exact ht2, hpc2⟩

theorem inv_runBody {N : Nat} {s : RunState} {i : Nat} {t : Task}
    (h : Inv N s) (hi : s.tasks[i]? = some t) (hpc : t.pc = PC.granted) :
    Inv N (runBody s i) := by
  have hmem := mem_of_lookup hi
  have hpend : t.status = Status.pending :=
    h.aux.startPending t hmem (Or.inr (Or.inr hpc))
  have hq : t.pc ≠ PC.queued := by rw [hpc]; intro hc; cases hc
  unfold runBody
  by_cases htok : s.token = true
  · rw [if_pos htok]
    have haux2 : InvAux { s with
        tasks := modifyTask s.tasks i fun u =>
          { u with status := Status.cancelled, pc := PC.done } } := by
      constructor
      · exact waitMem_modify_notQueued h.aux hi hq _
      · exact h.aux.waitNodup
      · intro t2 ht2 hpcs
        rcases mem_modifyTask ht2 with hm | ⟨t0, ht0, rfl⟩
        · exact h.aux.startPending t2 hm hpcs
        · simp at hpcs
      · intro t2 ht2 k hk
        rcases mem_modifyTask ht2 with hm | ⟨t0, ht0, rfl⟩
        · exact h.aux.awaitingStatus t2 hm k hk
        · simp at hk
      · intro t2 ht2 hst
        rcases mem_modifyTask ht2 with hm | ⟨t0, ht0, rfl⟩
        · exact h.aux.processingHolds t2 hm hst
        · simp at hst
      · intro t2 ht2 hst k hk
        rcases mem_modifyTask ht2 with hm | ⟨t0, ht0, rfl⟩
        · exact h.aux.cancelledAwaitingToken t2 hm hst k hk
        · simp at hk
      · intro htok2 t2 ht2
        rcases mem_modifyTask ht2 with hm | ⟨t0, ht0, rfl⟩
        · exact h.aux.tokenNoProcessing htok t2 hm
        · intro hc
          cases hc
    obtain ⟨haux3, hperm3⟩ := inv_release haux2
    refine ⟨haux3, ?_⟩
    have hcount := countHold_modify
      (fun u => { u with status := Status.cancelled, pc := PC.done }) hi 1 0
      (by rw [hpc]; rfl) rfl
    have hp := h.perm
    simp only [countHold] at hcount hperm3 hp ⊢
    omega
  · have hb : s.token = false := by
      cases hbv : s.token
      · rfl
      · exact absurd hbv htok
    rw [hb, if_neg Bool.false_ne_true]
    constructor
    · constructor
      · exact waitMem_modify_notQueued h.aux hi hq _
      · exact h.aux.waitNodup
      · intro t2 ht2 hpcs
        rcases mem_modifyTask ht2 with hm | ⟨t0, ht0, rfl⟩
        · exact h.aux.startPending t2 hm hpcs
        · simp at hpcs
      · intro t2 ht2 k hk
        rcases mem_modifyTask ht2 with hm | ⟨t0, ht0, rfl⟩
        · exact h.aux.awaitingStatus t2 hm k hk
        · exact Or.inl rfl
      · intro t2 ht2 hst
        rcases mem_modifyTask ht2 with hm | ⟨t0, ht0, rfl⟩
        · exact h.aux.processingHolds t2 hm hst
        · rfl
      · intro t2 ht2 hst k hk
        rcases mem_modifyTask ht2 with hm | ⟨t0, ht0, rfl⟩
        · have h3 := h.aux.cancelledAwaitingToken t2 hm hst k hk
          rw [hb] at h3
          exact h3
        · simp at hst
      · intro htok2 t2 ht2
        exact absurd htok2 Bool.false_ne_true
    · have hcount := countHold_modify
        (fun u => { u with status := Status.processing, progress := 10,
                           startTime := some s.clock, pc := PC.awaiting 0 }) hi 1 1
        (by rw [hpc]; rfl) rfl
      have hp := h.perm
      simp only [countHold] at hcount hp ⊢
      omega

theorem invAux_modify_done {s : RunState} (h : InvAux s) {i : Nat} {t : Task}
    (hi : s.tasks[i]? = some t) (hq : t.pc ≠ PC.queued) (f : Task → Task)
    (hfd : (f t).pc = PC.done) (hfs : (f t).status ≠ Status.processing) :
    InvAux { s with tasks := modifyTask s.tasks i f } := by
  constructor
  · exact waitMem_modify_notQueued h hi hq f
  · exact h.waitNodup
  · intro t2 ht2 hpcs
    rcases mem_modifyTask ht2 with hm | ⟨t0, ht0, rfl⟩
    · exact h.startPending t2 hm hpcs
    · have ht0t : t0 = t := by rw [ht0] at hi; exact Option.some.inj hi
      subst ht0t
      rw [hfd] at hpcs
      rcases hpcs with hc | hc | hc <;> exact absurd hc (by decide)
  · intro t2 ht2 k hk
    rcases mem_modifyTask ht2 with hm | ⟨t0, ht0, rfl⟩
    · exact h.awaitingStatus t2 hm k hk
    · have ht0t : t0 = t := by rw [ht0] at hi; exact Option.some.inj hi
      subst ht0t
      rw [hfd] at hk
      cases hk
  · intro t2 ht2 hst
    rcases mem_modifyTask ht2 with hm | ⟨t0, ht0, rfl⟩
    · exact h.processingHolds t2 hm hst
    · have ht0t : t0 = t := by rw [ht0] at hi; exact Option.some.inj hi
      subst ht0t
      exact absurd hst hfs
  · intro t2 ht2 hst k hk
    rcases mem_modifyTask ht2 with hm | ⟨t0, ht0, rfl⟩
    · exact h.cancelledAwaitingToken t2 hm hst k hk
    · have ht0t : t0 = t := by rw [ht0] at hi; exact Option.some.inj hi
      subst ht0t
      rw [hfd] at hk
      cases hk
  · intro htok2 t2 ht2
    rcases mem_modifyTask ht2 with hm | ⟨t0, ht0, rfl⟩
    · exact h.tokenNoProcessing htok2 t2 hm
    · have ht0t : t0 = t := by rw [ht0] at hi; exact Option.some.inj hi
      subst ht0t
      exact hfs

/-- Every path of a task that ends it (terminal status write plus the
release in `finally`) preserves the invariant. -/
theorem inv_finish {N : Nat} {s : RunState} {i : Nat} {t : Task}
    (h : Inv N s) (hi : s.tasks[i]? = some t) (hhold : holdsPermit t.pc = true)
    (hq : t.pc ≠ PC.queued) (f : Task → Task)
    (hfd : (f t).pc = PC.done) (hfs : (f t).status ≠ Status.processing) :
    Inv N (release { s with tasks := modifyTask s.tasks i f }) := by
  obtain ⟨haux3, hperm3⟩ := inv_release (invAux_modify_done h.aux hi hq f hfd hfs)
  refine ⟨haux3, ?_⟩
  have hcount := countHold_modify f hi 1 0 (by rw [hhold]; rfl) (by rw [hfd]; rfl)
  have hp := h.perm
  simp only [countHold] at hcount hperm3 hp ⊢
  omega

theorem inv_remoteSettled {N : Nat} {s : RunState} {i k : Nat} {t : Task}
    (h : Inv N s) (hi : s.tasks[i]? = some t) (hpc : t.pc = PC.awaiting k) (ok : Bool) :
    Inv N (remoteSettled s i k ok) := by
  have hmem := mem_of_lookup hi
  have hq : t.pc ≠ PC.queued := by rw [hpc]; intro hc; cases hc
  have hhold : holdsPermit t.pc = true := by rw [hpc]; rfl
  unfold remoteSettled
  by_cases htok : s.token = true
  · rw [if_pos htok]
    cases ok
    · rw [if_neg Bool.false_ne_true]
      exact inv_finish h hi hhold hq
        (fun u => { u with status := Status.cancelled, pc := PC.done })
        rfl (by intro hc; cases hc)
    · rw [if_pos rfl]
      exact inv_finish h hi hhold hq
        (fun u => { u with status := Status.cancelled, endTime := some s.clock, pc := PC.done })
        rfl (by intro hc; cases hc)
  · have hb : s.token = false := by
      cases hbv : s.token
      · rfl
      · exact absurd hbv htok
    rw [if_neg htok]
    have hproc : t.status = Status.processing := by
      rcases h.aux.awaitingStatus t hmem k hpc with hp1 | hp1
      · exact hp1
      · have := h.aux.cancelledAwaitingToken t hmem hp1 k hpc
        rw [hb] at this
        cases this
    cases ok
    · rw [if_neg Bool.false_ne_true]
      exact inv_finish h hi hhold hq
        (fun u => { u with status := Status.failed, endTime := some s.clock,
                           error := some "Upload failed", pc := PC.done })
        rfl (by intro hc; cases hc)
    · rw [if_pos rfl]
      by_cases hk2 : k < 2
      · rw [if_pos hk2]
        constructor
        · constructor
          · exact waitMem_modify_notQueued h.aux hi hq _
          · exact h.aux.waitNodup
          · intro t2 ht2 hpcs
            rcases mem_modifyTask ht2 with hm | ⟨t0, ht0, rfl⟩
            · exact h.aux.startPending t2 hm hpcs
            · rcases hpcs with hc | hc | hc <;> cases hc
          · intro t2 ht2 k3 hk3
            rcases mem_modifyTask ht2 with hm | ⟨t0, ht0, rfl⟩
            · exact h.aux.awaitingStatus t2 hm k3 hk3
            · have ht0t : t0 = t := by rw [ht0] at hi; exact Option.some.inj hi
              subst ht0t
              exact Or.inl hproc
          · intro t2 ht2 hst
            rcases mem_modifyTask ht2 with hm | ⟨t0, ht0, rfl⟩
            · exact h.aux.processingHolds t2 hm hst
            · rfl
          · intro t2 ht2 hst k3 hk3
            rcases mem_modifyTask ht2 with hm | ⟨t0, ht0, rfl⟩
            · exact h.aux.cancelledAwaitingToken t2 hm hst k3 hk3
            · have ht0t : t0 = t := by rw [ht0] at hi; exact Option.some.inj hi
              subst ht0t
              have hst2 : t0.status = Status.cancelled := hst
              rw [hproc] at hst2
              exact absurd hst2 (by decide)
          · intro htok2 t2 ht2
            exact absurd htok2 htok
        · have hcount := countHold_modify
            (fun u => { u with progress := milestone k, pc := PC.awaiting (k + 1) })
            hi 1 1 (by rw [hhold]; rfl) rfl
          have hp := h.perm
          simp only [countHold] at hcount hp ⊢
          omega
      · rw [if_neg hk2]
        exact inv_finish h hi hhold hq
          (fun u => { u with status := Status.completed, progress := 100,
                             endTime := some s.clock, pc := PC.done })
          rfl (by intro hc; cases hc)

theorem inv_cancel {N : Nat} {s : RunState} (h : Inv N s) :
    Inv N { s with
            token := true,
            tasks := s.tasks.map fun t =>
              if t.status = Status.processing then { t with status := Status.cancelled }
              else t } := by
  constructor
  · constructor
    · intro j hj
      obtain ⟨t2, ht2, hpc2⟩ := h.aux.waitMem j hj
      refine ⟨if t2.status = Status.processing then { t2 with status := Status.cancelled } else t2,
        ?_, ?_⟩
      · simp [List.getElem?_map, ht2]
      · by_cases hp : t2.status = Status.processing
        · rw [if_pos hp]
          exact hpc2
        · rw [if_neg hp]
          exact hpc2
    · exact h.aux.waitNodup
    · intro t2 ht2 hpcs
      rw [List.mem_map] at ht2
      obtain ⟨t0, ht0, rfl⟩ := ht2
      by_cases hp : t0.status = Status.processing
      · rw [if_pos hp] at hpcs ⊢
        have hpend := h.aux.startPending t0 ht0 (by simpa using hpcs)
        rw [hp] at hpend
        exact absurd hpend (by decide)
      · rw [if_neg hp] at hpcs ⊢
        exact h.aux.startPending t0 ht0 hpcs
    · intro t2 ht2 k hk
      rw [List.mem_map] at ht2
      obtain ⟨t0, ht0, rfl⟩ := ht2
      by_cases hp : t0.status = Status.processing
      · rw [if_pos hp] at hk ⊢
        exact Or.inr rfl
      · rw [if_neg hp] at hk ⊢
        exact h.aux.awaitingStatus t0 ht0 k hk
    · intro t2 ht2 hst
      rw [List.mem_map] at ht2
      obtain ⟨t0, ht0, rfl⟩ := ht2
      by_cases hp : t0.status = Status.processing
      · rw [if_pos hp] at hst
        have hst2 : Status.cancelled = Status.processing := hst
        exact absurd hst2 (by decide)
      · rw [if_neg hp] at hst ⊢
        exact h.aux.processingHolds t0 ht0 hst
    · intro t2 ht2 hst k hk
      rfl
    · intro htok2 t2 ht2
      rw [List.mem_map] at ht2
      obtain ⟨t0, ht0, rfl⟩ := ht2
      by_cases hp : t0.status = Status.processing
      · rw [if_pos hp]
        intro hc
        have hc2 : Status.cancelled = Status.processing := hc
        exact absurd hc2 (by decide)
      · rw [if_neg hp]
        exact hp
  · have heq : (s.tasks.map fun t =>
        if t.status = Status.processing then { t with status := Status.cancelled } else t).countP
          (fun u => holdsPermit u.pc) = s.tasks.countP (fun u => holdsPermit u.pc) := by
      rw [List.countP_map]
      apply List.countP_congr
      intro t0 ht0
      by_cases hp : t0.status = Status.processing
      · simp [Function.comp, hp]
      · simp [Function.comp, hp]
    have hp2 := h.perm
    simp only [countHold] at hp2 ⊢
    rw [heq]
    exact hp2

theorem inv_startRun {N : Nat} {s : RunState} (h : Inv N s)
    (hall : (s.tasks.all fun t => t.pc = PC.done) = true) :
    Inv N { s with
            token := false, permits := N, waiting := [],
            tasks := s.tasks.map fun t =>
              if t.status = Status.pending then { t with pc := PC.start } else t } := by
  have hdone : ∀ t ∈ s.tasks, t.pc = PC.done := by
    intro t ht
    exact of_decide_eq_true (List.all_eq_true.mp hall t ht)
  constructor
  · constructor
    · intro j hj
      exact absurd hj (List.not_mem_nil j)
    · exact List.nodup_nil
    · intro t2 ht2 hpcs
      rw [List.mem_map] at ht2
      obtain ⟨t0, ht0, rfl⟩ := ht2
      by_cases hp : t0.status = Status.pending
      · rw [if_pos hp]
        exact hp
      · rw [if_neg hp] at hpcs ⊢
        rw [hdone t0 ht0] at hpcs
        rcases hpcs with hc | hc | hc <;> exact absurd hc (by decide)
    · intro t2 ht2 k hk
      rw [List.mem_map] at ht2
      obtain ⟨t0, ht0, rfl⟩ := ht2
      by_cases hp : t0.status = Status.pending
      · rw [if_pos hp] at hk
        cases hk
      · rw [if_neg hp] at hk
        rw [hdone t0 ht0] at hk
        cases hk
    · intro t2 ht2 hst
      rw [List.mem_map] at ht2
      obtain ⟨t0, ht0, rfl⟩ := ht2
      by_cases hp : t0.status = Status.pending
      · rw [if_pos hp] at hst
        have hst2 : t0.status = Status.processing := hst
        rw [hp] at hst2
        exact absurd hst2 (by decide)
      · rw [if_neg hp] at hst
        have := h.aux.processingHolds t0 ht0 hst
        rw [hdone t0 ht0] at this
        exact absurd this (by decide)
    · intro t2 ht2 hst k hk
      rw [List.mem_map] at ht2
      obtain ⟨t0, ht0, rfl⟩ := ht2
      by_cases hp : t0.status = Status.pending
      · rw [if_pos hp] at hk
        cases hk
      · rw [if_neg hp] at hk
        rw [hdone t0 ht0] at hk
        cases hk
    · intro htok2 t2 ht2
      exact absurd htok2 Bool.false_ne_true
  · have hzero : (s.tasks.map fun t =>
        if t.status = Status.pending then { t with pc := PC.start } else t).countP
          (fun u => holdsPermit u.pc) = 0 := by
      rw [List.countP_map, List.countP_eq_zero]
      intro t0 ht0
      by_cases hp : t0.status = Status.pending
      · simp [Function.comp, hp, holdsPermit]
      · simp [Function.comp, hp, hdone t0 ht0, holdsPermit]
    simp only [countHold]
    rw [hzero]
    omega

theorem inv_acquire_fast {N : Nat} {s : RunState} {i : Nat} {t : Task}
    (h : Inv N s) (hi : s.tasks[i]? = some t)
    (hpcs : t.pc = PC.start) (hperm : 0 < s.permits) :
    Inv N (runBody { s with
                     permits := s.permits - 1,
                     tasks := modifyTask s.tasks i fun u => { u with pc := PC.granted } } i) := by
  have hmem := mem_of_lookup hi
  have hpend := h.aux.startPending t hmem (Or.inl hpcs)
  have hq : t.pc ≠ PC.queued := by rw [hpcs]; intro hc; cases hc
  have hmid : Inv N { s with
                      permits := s.permits - 1,
                      tasks := modifyTask s.tasks i fun u => { u with pc := PC.granted } } := by
    constructor
    · constructor
      · exact waitMem_modify_notQueued h.aux hi hq _
      · exact h.aux.waitNodup
      · intro t2 ht2 hpcs2
        rcases mem_modifyTask ht2 with hm | ⟨t0, ht0, rfl⟩
        · exact h.aux.startPending t2 hm hpcs2
        · have ht0t : t0 = t := by rw [ht0] at hi; exact Option.some.inj hi
          subst ht0t
          exact hpend
      · intro t2 ht2 k hk
        rcases mem_modifyTask ht2 with hm | ⟨t0, ht0, rfl⟩
        · exact h.aux.awaitingStatus t2 hm k hk
        · cases hk
      · intro t2 ht2 hst
        rcases mem_modifyTask ht2 with hm | ⟨t0, ht0, rfl⟩
        · exact h.aux.processingHolds t2 hm hst
        · rfl
      · intro t2 ht2 hst k hk
        rcases mem_modifyTask ht2 with hm | ⟨t0, ht0, rfl⟩
        · exact h.aux.cancelledAwaitingToken t2 hm hst k hk
        · cases hk
      · intro htok2 t2 ht2
        rcases mem_modifyTask ht2 with hm | ⟨t0, ht0, rfl⟩
        · exact h.aux.tokenNoProcessing htok2 t2 hm
        · have ht0t : t0 = t := by rw [ht0] at hi; exact Option.some.inj hi
          subst ht0t
          intro hc
          have hc2 : t0.status = Status.processing := hc
          rw [hpend] at hc2
          exact absurd hc2 (by decide)
    · have hcount := countHold_modify (fun u => { u with pc := PC.granted }) hi 0 1
        (by rw [hpcs]; rfl) rfl
      have hp := h.perm
      simp only [countHold] at hcount hp ⊢
      omega
  exact inv_runBody hmid (getElem?_modifyTask_self _ hi) rfl

theorem inv_acquire_slow {N : Nat} {s : RunState} {i : Nat} {t : Task}
    (h : Inv N s) (hi : s.tasks[i]? = some t) (hpcs : t.pc = PC.start) :
    Inv N { s with
            waiting := s.waiting ++ [i],
            tasks := modifyTask s.tasks i fun u => { u with pc := PC.queued } } := by
  have hmem := mem_of_lookup hi
  have hpend := h.aux.startPending t hmem (Or.inl hpcs)
  have hq : t.pc ≠ PC.queued := by rw [hpcs]; intro hc; cases hc
  have hnotwait : i ∉ s.waiting := by
    intro hc
    obtain ⟨t2, ht2, hpc2⟩ := h.aux.waitMem i hc
    rw [hi] at ht2
    rw [← Option.some.inj ht2] at hpc2
    rw [hpcs] at hpc2
    cases hpc2
  constructor
  · constructor
    · intro j hj
      rcases List.mem_append.mp hj with hjold | hji
      · obtain ⟨t2, ht2, hpc2⟩ := h.aux.waitMem j hjold
        have hne : i ≠ j := by
          intro hEq
          subst hEq
          exact hnotwait hjold
        exact ⟨t2, by rw [getElem?_modifyTask_ne s.tasks _ hne]; exact ht2, hpc2⟩
      · have hji2 : j = i := List.mem_singleton.mp hji
        subst hji2
        exact ⟨{ t with pc := PC.queued }, getElem?_modifyTask_self _ hi, rfl⟩
    · rw [List.nodup_append]
      refine ⟨h.aux.waitNodup, List.nodup_singleton i, ?_⟩
      intro a ha hai
      rw [List.mem_singleton.mp hai] at ha
      exact hnotwait ha
    · intro t2 ht2 hpcs2
      rcases mem_modifyTask ht2 with hm | ⟨t0, ht0, rfl⟩
      · exact h.aux.startPending t2 hm hpcs2
      · have ht0t : t0 = t := by rw [ht0] at hi; exact Option.some.inj hi
        subst ht0t
        exact hpend
    · intro t2 ht2 k hk
      rcases mem_modifyTask ht2 with hm | ⟨t0, ht0, rfl⟩
      · exact h.aux.awaitingStatus t2 hm k hk
      · cases hk
    · intro t2 ht2 hst
      rcases mem_modifyTask ht2 with hm | ⟨t0, ht0, rfl⟩
      · exact h.aux.processingHolds t2 hm hst
      · have ht0t : t0 = t := by rw [ht0] at hi; exact Option.some.inj hi
        subst ht0t
        have hst2 : t0.status = Status.processing := hst
        rw [hpend] at hst2
        exact absurd hst2 (by decide)
    · intro t2 ht2 hst k hk
      rcases mem_modifyTask ht2 with hm | ⟨t0, ht0, rfl⟩
      · exact h.aux.cancelledAwaitingToken t2 hm hst k hk
      · cases hk
    · intro htok2 t2 ht2
      rcases mem_modifyTask ht2 with hm | ⟨t0, ht0, rfl⟩
      · exact h.aux.tokenNoProcessing htok2 t2 hm
      · have ht0t : t0 = t := by rw [ht0] at hi; exact Option.some.inj hi
        subst ht0t
        intro hc
        have hc2 : t0.status = Status.processing := hc
        rw [hpend] at hc2
        exact absurd hc2 (by decide)
  · have hcount := countHold_modify (fun u => { u with pc := PC.queued }) hi 0 0
      (by rw [hpcs]; rfl) rfl
    have hp := h.perm
    simp only [countHold] at hcount hp ⊢
    omega

theorem inv_clock {N : Nat} {s : RunState} (h : Inv N s) (c : Nat) :
    Inv N { s with clock := c } :=
  ⟨⟨h.aux.waitMem, h.aux.waitNodup, h.aux.startPending, h.aux.awaitingStatus,
    h.aux.processingHolds, h.aux.cancelledAwaitingToken, h.aux.tokenNoProcessing⟩, h.perm⟩

theorem inv_step {N : Nat} {s : RunState} (h : Inv N s) (e : Event) :
    Inv N (step N s e) := by
  cases e with
  | acquire i =>
      simp only [step]
      split
      · next t heq =>
          by_cases hpcs : t.pc = PC.start
          · rw [if_pos hpcs]
            by_cases hperm : 0 < s.permits
            · rw [if_pos hperm]
              exact inv_clock (inv_acquire_fast h heq hpcs hperm) _
            · rw [if_neg hperm]
              exact inv_clock (inv_acquire_slow h heq hpcs) _
          · rw [if_neg hpcs]
            exact inv_clock h _
      · exact inv_clock h _
  | wake i =>
      simp only [step]
      split
      · next t heq =>
          by_cases hpcs : t.pc = PC.granted
          · rw [if_pos hpcs]
            exact inv_clock (inv_runBody h heq hpcs) _
          · rw [if_neg hpcs]
            exact inv_clock h _
      · exact inv_clock h _
  | remote i ok =>
      simp only [step]
      split
      · next t heq =>
          split
          · next k hpc => exact inv_clock (inv_remoteSettled h heq hpc ok) _
          · exact inv_clock h _
      · exact inv_clock h _
  | cancel =>
      simp only [step]
      exact inv_clock (inv_cancel h) _
  | startRun =>
      simp only [step]
      by_cases hall : (s.tasks.all fun t => t.pc = PC.done) = true
      · rw [if_pos hall]
        exact inv_clock (inv_startRun h hall) _
      · rw [if_neg hall]
        exact inv_clock h _

theorem inv_init (N n : Nat) : Inv N (init N n) := by
  constructor
  · constructor
    · intro j hj
      exact absurd hj (List.not_mem_nil j)
    · exact List.nodup_nil
    · intro t2 ht2 hpcs
      have := List.eq_of_mem_replicate ht2
      subst this
      rcases hpcs with hc | hc | hc <;> exact absurd hc (by decide)
    · intro t2 ht2 k hk
      have := List.eq_of_mem_replicate ht2
      subst this
      cases hk
    · intro t2 ht2 hst
      have := List.eq_of_mem_replicate ht2
      subst this
      exact absurd hst (by decide)
    · intro t2 ht2 hst k hk
      have := List.eq_of_mem_replicate ht2
      subst this
      cases hk
    · intro htok2 t2 ht2
      exact absurd htok2 Bool.false_ne_true
  · have hzero : countHold (init N n) = 0 := by
      simp only [countHold, init]
      rw [List.countP_eq_zero]
      intro t2 ht2
      have := List.eq_of_mem_replicate ht2
      subst this
      decide
    rw [hzero]
    simp [init]

theorem inv_run {N : Nat} {s : RunState} (h : Inv N s) (es : List Event) :
    Inv N (run N s es) := by
  induction es generalizing s with
  | nil => exact h
  | cons e es ih =>
      simp only [run, List.foldl_cons]
      exact ih (inv_step h e)

/-! ## How steps act on a single task -/

theorem statusOf_modify_self {ts : List Task} {i : Nat} {t : Task} (f : Task → Task)
    (h : ts[i]? = some t) : statusOf (modifyTask ts i f) i = (f t).status := by
  unfold statusOf
  rw [getElem?_modifyTask_self f h]

theorem statusOf_modify_ne {ts : List Task} {i2 i : Nat} (f : Task → Task)
    (h : i2 ≠ i) : statusOf (modifyTask ts i2 f) i = statusOf ts i := by
  unfold statusOf
  rw [getElem?_modifyTask_ne ts f h]

theorem statusOf_modify_preserved (ts : List Task) (j : Nat) (f : Task → Task)
    (hf : ∀ u, (f u).status = u.status) (i : Nat) :
    statusOf (modifyTask ts j f) i = statusOf ts i := by
  by_cases hji : j = i
  · subst hji
    cases hj : ts[j]? with
    | none => rw [getElem?_modifyTask_none f hj]
    | some t =>
        unfold statusOf
        rw [getElem?_modifyTask_self f hj, hj]
        exact hf t
  · exact statusOf_modify_ne f hji

theorem statusOf_release (s : RunState) (i : Nat) :
    statusOf (release s).tasks i = statusOf s.tasks i := by
  unfold release
  cases hw : s.waiting with
  | nil => rfl
  | cons j rest =>
      exact statusOf_modify_preserved s.tasks j
        (fun t => { t with pc := PC.granted }) (fun u => rfl) i

theorem statusOf_map_preserved {ts : List Task} {g : Task → Task}
    (hg : ∀ u, (g u).status = u.status) (i : Nat) :
    statusOf (ts.map g) i = statusOf ts i := by
  unfold statusOf
  rw [List.getElem?_map]
  cases ts[i]? <;> simp [hg]

theorem statusOf_runBody_ne {s : RunState} {i2 i : Nat} (hne : i2 ≠ i) :
    statusOf (runBody s i2).tasks i = statusOf s.tasks i := by
  unfold runBody
  by_cases htok : s.token = true
  · rw [if_pos htok, statusOf_release]
    exact statusOf_modify_ne _ hne
  · rw [if_neg htok]
    exact statusOf_modify_ne _ hne

theorem statusOf_remoteSettled_ne {s : RunState} {i2 k : Nat} {ok : Bool} {i : Nat}
    (hne : i2 ≠ i) :
    statusOf (remoteSettled s i2 k ok).tasks i = statusOf s.tasks i := by
  unfold remoteSettled
  by_cases htok : s.token = true
  · rw [if_pos htok]
    cases ok
    · rw [if_neg Bool.false_ne_true, statusOf_release]
      exact statusOf_modify_ne _ hne
    · rw [if_pos rfl, statusOf_release]
      exact statusOf_modify_ne _ hne
  · rw [if_neg htok]
    cases ok
    · rw [if_neg Bool.false_ne_true, statusOf_release]
      exact statusOf_modify_ne _ hne
    · rw [if_pos rfl]
      by_cases hk2 : k < 2
      · rw [if_pos hk2]
        exact statusOf_modify_ne _ hne
      · rw [if_neg hk2, statusOf_release]
        exact statusOf_modify_ne _ hne

theorem statusOf_remoteSettled_token_self {s : RunState} {i k : Nat} {ok : Bool} {t : Task}
    (heq : s.tasks[i]? = some t) (htok : s.token = true) :
    statusOf (remoteSettled s i k ok).tasks i = Status.cancelled := by
  unfold remoteSettled
  rw [if_pos htok]
  cases ok
  · rw [if_neg Bool.false_ne_true, statusOf_release, statusOf_modify_self _ heq]
  · rw [if_pos rfl, statusOf_release, statusOf_modify_self _ heq]

/-- Terminal statuses are never overwritten by any step: the stability
half of the terminal-state invariant. -/
theorem terminal_step {N : Nat} {s : RunState} {i : Nat} (h : Inv N s)
    (ht : isTerminalStatus (statusAt s i) = true) (e : Event) :
    statusAt (step N s e) i = statusAt s i := by
  cases e with
  | acquire i2 =>
      simp only [step, statusAt]
      split
      · next t2 heq =>
          by_cases hpcs : t2.pc = PC.start
          · rw [if_pos hpcs]
            by_cases hperm : 0 < s.permits
            · rw [if_pos hperm]
              by_cases hii : i2 = i
              · subst hii
                have hpend := h.aux.startPending t2 (mem_of_lookup heq) (Or.inl hpcs)
                have hst : statusAt s i2 = t2.status := by
                  unfold statusAt statusOf
                  rw [heq]
                rw [hst, hpend] at ht
                exact absurd ht (by decide)
              · rw [statusOf_runBody_ne hii]
                exact statusOf_modify_ne _ hii
            · rw [if_neg hperm]
              exact statusOf_modify_preserved s.tasks i2
                (fun u => { u with pc := PC.queued }) (fun u => rfl) i
          · rw [if_neg hpcs]
      · rfl
  | wake i2 =>
      simp only [step, statusAt]
      split
      · next t2 heq =>
          by_cases hpcs : t2.pc = PC.granted
          · rw [if_pos hpcs]
            by_cases hii : i2 = i
            · subst hii
              have hpend := h.aux.startPending t2 (mem_of_lookup heq) (Or.inr (Or.inr hpcs))
              have hst : statusAt s i2 = t2.status := by
                unfold statusAt statusOf
                rw [heq]
              rw [hst, hpend] at ht
              exact absurd ht (by decide)
            · exact statusOf_runBody_ne hii
          · rw [if_neg hpcs]
      · rfl
  | remote i2 ok =>
      simp only [step, statusAt]
      split
      · next t2 heq =>
          split
          · next k hpc =>
              by_cases hii : i2 = i
              · subst hii
                have hst : statusOf s.tasks i2 = t2.status := by
                  unfold statusOf
                  rw [heq]
                have hcanc : t2.status = Status.cancelled := by
                  rcases h.aux.awaitingStatus t2 (mem_of_lookup heq) k hpc with hp1 | hp1
                  · have ht2 : isTerminalStatus t2.status = true := by
                      unfold statusAt at ht
                      rw [hst] at ht
                      exact ht
                    rw [hp1] at ht2
                    exact absurd ht2 (by decide)
                  · exact hp1
                have htok : s.token = true :=
                  h.aux.cancelledAwaitingToken t2 (mem_of_lookup heq) hcanc k hpc
                rw [statusOf_remoteSettled_token_self heq htok, hst, hcanc]
              · exact statusOf_remoteSettled_ne hii
          · rfl
      · rfl
  | cancel =>
      simp only [step, statusAt]
      unfold statusOf
      rw [List.getElem?_map]
      cases hti : s.tasks[i]? with
      | none => rfl
      | some t =>
          have hst : statusAt s i = t.status := by
            unfold statusAt statusOf
            rw [hti]
          by_cases hp : t.status = Status.processing
          · rw [hst, hp] at ht
            exact absurd ht (by decide)
          · rw [Option.map_some', if_neg hp]
  | startRun =>
      simp only [step, statusAt]
      by_cases hall : (s.tasks.all fun t => t.pc = PC.done) = true
      · rw [if_pos hall]
        apply statusOf_map_preserved
        intro u
        by_cases hu : u.status = Status.pending
        · rw [if_pos hu]
        · rw [if_neg hu]
      · rw [if_neg hall]

/-- Terminal statuses are stable along any schedule. -/
theorem terminal_run {N : Nat} {s : RunState} {i : Nat} (h : Inv N s)
    (ht : isTerminalStatus (statusAt s i) = true) (es : List Event) :
    statusAt (run N s es) i = statusAt s i := by
  induction es generalizing s with
  | nil => rfl
  | cons e es ih =>
      simp only [run, List.foldl_cons]
      have hstep := terminal_step h ht e
      have ht2 : isTerminalStatus (statusAt (step N s e) i) = true := by
        rw [hstep]
        exact ht
      calc statusAt (run N (step N s e) es) i
          = statusAt (step N s e) i := ih (inv_step h e) ht2
        _ = statusAt s i := hstep

/-! ## Per-field effect lemmas -/

theorem pcOf_modify_self {ts : List Task} {i : Nat} {t : Task} (f : Task → Task)
    (h : ts[i]? = some t) : pcOf (modifyTask ts i f) i = (f t).pc := by
  unfold pcOf
  rw [getElem?_modifyTask_self f h]

theorem pcOf_modify_ne {ts : List Task} {i2 i : Nat} (f : Task → Task)
    (h : i2 ≠ i) : pcOf (modifyTask ts i2 f) i = pcOf ts i := by
  unfold pcOf
  rw [getElem?_modifyTask_ne ts f h]

theorem pcOf_release_not_waiting {s : RunState} {i : Nat} (h : i ∉ s.waiting) :
    pcOf (release s).tasks i = pcOf s.tasks i := by
  unfold release
  cases hw : s.waiting with
  | nil => rfl
  | cons j rest =>
      rw [hw] at h
      have hne : j ≠ i := by
        intro hEq
        exact h (hEq ▸ List.mem_cons_self j rest)
      exact pcOf_modify_ne _ hne

theorem pcOf_modify_none {ts : List Task} {j : Nat} (f : Task → Task)
    (h : ts[j]? = none) (i : Nat) : pcOf (modifyTask ts j f) i = pcOf ts i := by
  rw [getElem?_modifyTask_none f h]

theorem pcOf_release_disj (s : RunState) (i : Nat) :
    pcOf (release s).tasks i = pcOf s.tasks i
      ∨ pcOf (release s).tasks i = PC.granted := by
  unfold release
  cases hw : s.waiting with
  | nil => exact Or.inl rfl
  | cons j rest =>
      by_cases hji : j = i
      · subst hji
        cases hj : s.tasks[j]? with
        | none => exact Or.inl (pcOf_modify_none _ hj j)
        | some t => exact Or.inr (pcOf_modify_self _ hj)
      · exact Or.inl (pcOf_modify_ne _ hji)

theorem endTimeOf_modify_self {ts : List Task} {i : Nat} {t : Task} (f : Task → Task)
    (h : ts[i]? = some t) : endTimeOf (modifyTask ts i f) i = (f t).endTime := by
  unfold endTimeOf
  rw [getElem?_modifyTask_self f h]

theorem endTimeOf_modify_preserved (ts : List Task) (j : Nat) (f : Task → Task)
    (hf : ∀ u, (f u).endTime = u.endTime) (i : Nat) :
    endTimeOf (modifyTask ts j f) i = endTimeOf ts i := by
  by_cases hji : j = i
  · subst hji
    cases hj : ts[j]? with
    | none => rw [getElem?_modifyTask_none f hj]
    | some t =>
        unfold endTimeOf
        rw [getElem?_modifyTask_self f hj, hj]
        exact hf t
  · unfold endTimeOf
    rw [getElem?_modifyTask_ne ts f hji]

theorem endTimeOf_release (s : RunState) (i : Nat) :
    endTimeOf (release s).tasks i = endTimeOf s.tasks i := by
  unfold release
  cases hw : s.waiting with
  | nil => rfl
  | cons j rest =>
      exact endTimeOf_modify_preserved s.tasks j
        (fun t => { t with pc := PC.granted }) (fun u => rfl) i

theorem errorOf_modify_self {ts : List Task} {i : Nat} {t : Task} (f : Task → Task)
    (h : ts[i]? = some t) : errorOf (modifyTask ts i f) i = (f t).error := by
  unfold errorOf
  rw [getElem?_modifyTask_self f h]

theorem errorOf_modify_preserved (ts : List Task) (j : Nat) (f : Task → Task)
    (hf : ∀ u, (f u).error = u.error) (i : Nat) :
    errorOf (modifyTask ts j f) i = errorOf ts i := by
  by_cases hji : j = i
  · subst hji
    cases hj : ts[j]? with
    | none => rw [getElem?_modifyTask_none f hj]
    | some t =>
        unfold errorOf
        rw [getElem?_modifyTask_self f hj, hj]
        exact hf t
  · unfold errorOf
    rw [getElem?_modifyTask_ne ts f hji]

theorem errorOf_release (s : RunState) (i : Nat) :
    errorOf (release s).tasks i = errorOf s.tasks i := by
  unfold release
  cases hw : s.waiting with
  | nil => rfl
  | cons j rest =>
      exact errorOf_modify_preserved s.tasks j
        (fun t => { t with pc := PC.granted }) (fun u => rfl) i

theorem progressOf_modify_preserved (ts : List Task) (j : Nat) (f : Task → Task)
    (hf : ∀ u, (f u).progress = u.progress) (i : Nat) :
    progressOf (modifyTask ts j f) i = progressOf ts i := by
  by_cases hji : j = i
  · subst hji
    cases hj : ts[j]? with
    | none => rw [getElem?_modifyTask_none f hj]
    | some t =>
        unfold progressOf
        rw [getElem?_modifyTask_self f hj, hj]
        exact hf t
  · unfold progressOf
    rw [getElem?_modifyTask_ne ts f hji]

theorem progressOf_release (s : RunState) (i : Nat) :
    progressOf (release s).tasks i = progressOf s.tasks i := by
  unfold release
  cases hw : s.waiting with
  | nil => rfl
  | cons j rest =>
      exact progressOf_modify_preserved s.tasks j
        (fun t => { t with pc := PC.granted }) (fun u => rfl) i

theorem progressOf_map_preserved {ts : List Task} {g : Task → Task}
    (hg : ∀ u, (g u).progress = u.progress) (i : Nat) :
    progressOf (ts.map g) i = progressOf ts i := by
  unfold progressOf
  rw [List.getElem?_map]
  cases ts[i]? <;> simp [hg]

theorem fileViewOf_modify_ne {ts : List Task} {i2 i : Nat} (f : Task → Task)
    (h : i2 ≠ i) : fileViewOf (modifyTask ts i2 f) i = fileViewOf ts i := by
  unfold fileViewOf
  rw [getElem?_modifyTask_ne ts f h]

theorem fileViewOf_modify_preserved (ts : List Task) (j : Nat) (f : Task → Task)
    (hf : ∀ u, (f u).status = u.status ∧ (f u).progress = u.progress ∧
      (f u).startTime = u.startTime ∧ (f u).endTime = u.endTime ∧ (f u).error = u.error)
    (i : Nat) : fileViewOf (modifyTask ts j f) i = fileViewOf ts i := by
  by_cases hji : j = i
  · subst hji
    cases hj : ts[j]? with
    | none => rw [getElem?_modifyTask_none f hj]
    | some t =>
        unfold fileViewOf
        rw [getElem?_modifyTask_self f hj, hj]
        obtain ⟨h1, h2, h3, h4, h5⟩ := hf t
        show ((f t).status, (f t).progress, (f t).startTime, (f t).endTime, (f t).error)
          = (t.status, t.progress, t.startTime, t.endTime, t.error)
        rw [h1, h2, h3, h4, h5]
  · unfold fileViewOf
    rw [getElem?_modifyTask_ne ts f hji]

theorem fileViewOf_release (s : RunState) (i : Nat) :
    fileViewOf (release s).tasks i = fileViewOf s.tasks i := by
  unfold release
  cases hw : s.waiting with
  | nil => rfl
  | cons j rest =>
      exact fileViewOf_modify_preserved s.tasks j
        (fun t => { t with pc := PC.granted }) (fun u => ⟨rfl, rfl, rfl, rfl, rfl⟩) i

/-! ## Step equations -/

theorem step_remote_eq {N : Nat} {s : RunState} {i : Nat} {ok : Bool} {t : Task} {k : Nat}
    (hti : s.tasks[i]? = some t) (hpc : t.pc = PC.awaiting k) :
    step N s (Event.remote i ok) = { remoteSettled s i k ok with clock := s.clock + 1 } := by
  simp only [step, hti, hpc]

theorem step_cancel_eq (N : Nat) (s : RunState) :
    step N s Event.cancel = { s with
      token := true,
      tasks := s.tasks.map fun t =>
        if t.status = Status.processing then { t with status := Status.cancelled } else t,
      clock := s.clock + 1 } := rfl

/-! ## Behaviour after the token is signalled -/

theorem pcOf_runBody_token {s2 : RunState} {i2 i k2 : Nat} (htok : s2.token = true)
    (hk2 : pcOf (runBody s2 i2).tasks i = PC.awaiting k2) :
    pcOf s2.tasks i = PC.awaiting k2 := by
  unfold runBody at hk2
  rw [if_pos htok] at hk2
  rcases pcOf_release_disj { s2 with
      tasks := modifyTask s2.tasks i2 fun t =>
        { t with status := Status.cancelled, pc := PC.done } } i with hd | hd
  · rw [hd] at hk2
    have hk3 : pcOf (modifyTask s2.tasks i2 fun t =>
        { t with status := Status.cancelled, pc := PC.done }) i = PC.awaiting k2 := hk2
    by_cases hii : i2 = i
    · subst hii
      cases hj : s2.tasks[i2]? with
      | none =>
          rw [pcOf_modify_none _ hj i2] at hk3
          exact hk3
      | some t =>
          rw [pcOf_modify_self _ hj] at hk3
          cases hk3
    · rw [pcOf_modify_ne _ hii] at hk3
      exact hk3
  · rw [hd] at hk2
    cases hk2

theorem pcOf_remoteSettled_token {s2 : RunState} {i2 k : Nat} {ok : Bool} {i k2 : Nat}
    (htok : s2.token = true)
    (hk2 : pcOf (remoteSettled s2 i2 k ok).tasks i = PC.awaiting k2) :
    pcOf s2.tasks i = PC.awaiting k2 := by
  unfold remoteSettled at hk2
  rw [if_pos htok] at hk2
  have main : ∀ f : Task → Task, (∀ u, (f u).pc = PC.done) →
      pcOf (release { s2 with tasks := modifyTask s2.tasks i2 f }).tasks i = PC.awaiting k2 →
      pcOf s2.tasks i = PC.awaiting k2 := by
    intro f hf hk3
    rcases pcOf_release_disj { s2 with tasks := modifyTask s2.tasks i2 f } i with hd | hd
    · rw [hd] at hk3
      have hk4 : pcOf (modifyTask s2.tasks i2 f) i = PC.awaiting k2 := hk3
      by_cases hii : i2 = i
      · subst hii
        cases hj : s2.tasks[i2]? with
        | none =>
            rw [pcOf_modify_none _ hj i2] at hk4
            exact hk4
        | some t =>
            rw [pcOf_modify_self _ hj, hf t] at hk4
            cases hk4
      · rw [pcOf_modify_ne _ hii] at hk4
        exact hk4
    · rw [hd] at hk3
      cases hk3
  cases ok
  · rw [if_neg Bool.false_ne_true] at hk2
    exact main _ (fun u => rfl) hk2
  · rw [if_pos rfl] at hk2
    exact main _ (fun u => rfl) hk2

theorem progressOf_runBody_token {s2 : RunState} {i2 i : Nat} (htok : s2.token = true) :
    progressOf (runBody s2 i2).tasks i = progressOf s2.tasks i := by
  unfold runBody
  rw [if_pos htok, progressOf_release]
  exact progressOf_modify_preserved s2.tasks i2
    (fun t => { t with status := Status.cancelled, pc := PC.done }) (fun u => rfl) i

theorem progressOf_remoteSettled_token {s2 : RunState} {i2 k : Nat} {ok : Bool} {i : Nat}
    (htok : s2.token = true) :
    progressOf (remoteSettled s2 i2 k ok).tasks i = progressOf s2.tasks i := by
  unfold remoteSettled
  rw [if_pos htok]
  cases ok
  · rw [if_neg Bool.false_ne_true, progressOf_release]
    exact progressOf_modify_preserved s2.tasks i2
      (fun t => { t with status := Status.cancelled, pc := PC.done }) (fun u => rfl) i
  · rw [if_pos rfl, progressOf_release]
    exact progressOf_modify_preserved s2.tasks i2
      (fun t => { t with status := Status.cancelled, endTime := some s2.clock, pc := PC.done })
      (fun u => rfl) i

theorem pcOf_map_preserved {ts : List Task} {g : Task → Task}
    (hg : ∀ u, (g u).pc = u.pc) (i : Nat) :
    pcOf (ts.map g) i = pcOf ts i := by
  unfold pcOf
  rw [List.getElem?_map]
  cases ts[i]? <;> simp [hg]

/-! ## Claim theorems -/

/-- C1: for every run of the model started from freshly added files with
configured parallelism `N`, and for every interleaving of task steps, at
no reachable instant are more than `N` tasks simultaneously in the
`processing` state; moreover a task with status `processing` always holds
a semaphore permit (its `finally` release happens in the same atomic step
as its terminal status write). -/
theorem processing_bounded_by_parallelCount (N n : Nat) (es : List Event) :
    ((run N (init N n) es).tasks.countP fun t => t.status = Status.processing) ≤ N
    ∧ ∀ i, statusAt (run N (init N n) es) i = Status.processing →
        holdsPermit (pcAt (run N (init N n) es) i) = true := by
  have h := inv_run (inv_init N n) es
  constructor
  · have h1 : ((run N (init N n) es).tasks.countP fun t => t.status = Status.processing)
        ≤ countHold (run N (init N n) es) := by
      apply List.countP_mono_left
      intro t ht hp
      exact h.aux.processingHolds t ht (of_decide_eq_true hp)
    have h2 := h.perm
    simp only [countHold] at h1 h2
    omega
  · intro i hsi
    unfold statusAt statusOf at hsi
    cases hti : (run N (init N n) es).tasks[i]? with
    | none =>
        rw [hti] at hsi
        exact absurd (show Status.pending = Status.processing from hsi) (by decide)
    | some t =>
        rw [hti] at hsi
        have hsi2 : t.status = Status.processing := hsi
        unfold pcAt pcOf
        rw [hti]
        exact h.aux.processingHolds t (mem_of_lookup hti) hsi2

theorem processing_bounded_by_parallelCount_witness :
    (((run 1 (init 1 1) [Event.startRun, Event.acquire 0]).tasks.countP
        fun t => t.status = Status.processing) ≤ 1)
    ∧ holdsPermit (pcAt (run 1 (init 1 1) [Event.startRun, Event.acquire 0]) 0) = true :=
  ⟨(processing_bounded_by_parallelCount 1 1 [Event.startRun, Event.acquire 0]).1,
   (processing_bounded_by_parallelCount 1 1 [Event.startRun, Event.acquire 0]).2 0 (by decide)⟩

/-- C4: once a task has reached a terminal status (`completed`, `failed`
or `cancelled`), no later operation of any schedule -- progress callbacks,
a bulk cancel, a subsequent run, or any other status update -- ever
changes that status again.  (`handleUpload` re-runs only still-`pending`
files; `handleCancel` re-marks only `processing` files; every per-task
write happens on a non-terminal task.) -/
theorem terminal_status_never_changes (N n : Nat) (es esPost : List Event) (i : Nat)
    (h : isTerminalStatus (statusAt (run N (init N n) es) i) = true) :
    statusAt (run N (run N (init N n) es) esPost) i
      = statusAt (run N (init N n) es) i :=
  terminal_run (inv_run (inv_init N n) es) h esPost

theorem terminal_status_never_changes_witness :
    isTerminalStatus (statusAt (run 1 (init 1 1)
      [Event.startRun, Event.acquire 0, Event.remote 0 true, Event.remote 0 true,
       Event.remote 0 true]) 0) = true
    ∧ statusAt (run 1 (run 1 (init 1 1)
        [Event.startRun, Event.acquire 0, Event.remote 0 true, Event.remote 0 true,
         Event.remote 0 true])
        [Event.cancel, Event.startRun, Event.acquire 0, Event.remote 0 false]) 0
      = statusAt (run 1 (init 1 1)
        [Event.startRun, Event.acquire 0, Event.remote 0 true, Event.remote 0 true,
         Event.remote 0 true]) 0 :=
  ⟨by decide,
   terminal_status_never_changes 1 1
     [Event.startRun, Event.acquire 0, Event.remote 0 true, Event.remote 0 true,
      Event.remote 0 true]
     [Event.cancel, Event.startRun, Event.acquire 0, Event.remote 0 false] 0 (by decide)⟩

/-- C2: the four cancellation checkpoints inside `uploadFile` are modelled
from the spec (their source is not in the repository snapshot); the progress
callback and the catch block that stamps `endTime` are from
`uploadFileWithSemaphore`.  Conjunct 1: for a task whose remote call is in
flight while the token is signalled, the checkpoint that runs when the call
completes observes the token, aborts the task (it ends `cancelled`) and
stamps `endTime` in the same synchronous block, via the catch handler.
Conjunct 2: once the token is signalled no task starts or advances a remote
call, so per task at most the one already in-flight remote step can still
complete.  Conjunct 3: the progress callback consults the token and never
advances `progress` once the token is signalled. -/
theorem cancellation_checkpoints (N : Nat) (s : RunState) (i k : Nat) (e : Event) :
    (s.token = true → pcAt s i = PC.awaiting k →
        statusAt (step N s (Event.remote i true)) i = Status.cancelled
        ∧ endTimeAt (step N s (Event.remote i true)) i = some s.clock)
    ∧ (s.token = true → ∀ k2, pcAt (step N s e) i = PC.awaiting k2 →
        pcAt s i = PC.awaiting k2)
    ∧ (s.token = true → progressAt (step N s e) i = progressAt s i) := by
  refine ⟨?_, ?_, ?_⟩
  · intro htok hpc
    unfold pcAt pcOf at hpc
    cases hti : s.tasks[i]? with
    | none =>
        rw [hti] at hpc
        cases hpc
    | some t =>
        rw [hti] at hpc
        have hpc2 : t.pc = PC.awaiting k := hpc
        rw [step_remote_eq hti hpc2]
        constructor
        · exact statusOf_remoteSettled_token_self hti htok
        · show endTimeOf (remoteSettled s i k true).tasks i = some s.clock
          unfold remoteSettled
          rw [if_pos htok, if_pos rfl, endTimeOf_release, endTimeOf_modify_self _ hti]
  · intro htok k2 hk2
    cases e with
    | acquire i2 =>
        unfold pcAt at hk2 ⊢
        simp only [step] at hk2
        split at hk2
        · next t2 heq =>
            by_cases hpcs : t2.pc = PC.start
            · rw [if_pos hpcs] at hk2
              by_cases hperm : 0 < s.permits
              · rw [if_pos hperm] at hk2
                have hk3 : pcOf (runBody { s with
                      permits := s.permits - 1,
                      tasks := modifyTask s.tasks i2 fun u =>
                        { u with pc := PC.granted } } i2).tasks i = PC.awaiting k2 := hk2
                have htok2 : ({ s with
                      permits := s.permits - 1,
                      tasks := modifyTask s.tasks i2 fun u =>
                        { u with pc := PC.granted } } : RunState).token = true := htok
                have hmid2 : pcOf (modifyTask s.tasks i2 fun u =>
                    { u with pc := PC.granted }) i = PC.awaiting k2 :=
                  pcOf_runBody_token htok2 hk3
                by_cases hii : i2 = i
                · subst hii
                  rw [pcOf_modify_self _ heq] at hmid2
                  cases hmid2
                · rw [pcOf_modify_ne _ hii] at hmid2
                  exact hmid2
              · rw [if_neg hperm] at hk2
                have hk3 : pcOf (modifyTask s.tasks i2 fun u =>
                    { u with pc := PC.queued }) i = PC.awaiting k2 := hk2
                by_cases hii : i2 = i
                · subst hii
                  rw [pcOf_modify_self _ heq] at hk3
                  cases hk3
                · rw [pcOf_modify_ne _ hii] at hk3
                  exact hk3
            · rw [if_neg hpcs] at hk2
              exact hk2
        · exact hk2
    | wake i2 =>
        unfold pcAt at hk2 ⊢
        simp only [step] at hk2
        split at hk2
        · next t2 heq =>
            by_cases hpcs : t2.pc = PC.granted
            · rw [if_pos hpcs] at hk2
              have hk3 : pcOf (runBody s i2).tasks i = PC.awaiting k2 := hk2
              exact pcOf_runBody_token htok hk3
            · rw [if_neg hpcs] at hk2
              exact hk2
        · exact hk2
    | remote i2 ok =>
        unfold pcAt at hk2 ⊢
        simp only [step] at hk2
        split at hk2
        · next t2 heq =>
            split at hk2
            · next kk hpcw =>
                have hk3 : pcOf (remoteSettled s i2 kk ok).tasks i = PC.awaiting k2 := hk2
                exact pcOf_remoteSettled_token htok hk3
            · exact hk2
        · exact hk2
    | cancel =>
        unfold pcAt at hk2 ⊢
        rw [step_cancel_eq] at hk2
        have hk3 : pcOf (s.tasks.map fun t =>
            if t.status = Status.processing then { t with status := Status.cancelled }
            else t) i = PC.awaiting k2 := hk2
        rw [pcOf_map_preserved ?hpc i] at hk3
        case hpc =>
          intro u
          by_cases hp : u.status = Status.processing
          · rw [if_pos hp]
          · rw [if_neg hp]
        exact hk3
    | startRun =>
        unfold pcAt at hk2 ⊢
        simp only [step] at hk2
        by_cases hall : (s.tasks.all fun t => t.pc = PC.done) = true
        · rw [if_pos hall] at hk2
          have hk3 : pcOf (s.tasks.map fun t =>
              if t.status = Status.pending then { t with pc := PC.start } else t) i
              = PC.awaiting k2 := hk2
          unfold pcOf at hk3
          rw [List.getElem?_map] at hk3
          cases hti : s.tasks[i]? with
          | none =>
              rw [hti] at hk3
              cases hk3
          | some t =>
              rw [hti, Option.map_some'] at hk3
              have hd : t.pc = PC.done :=
                of_decide_eq_true (List.all_eq_true.mp hall t (mem_of_lookup hti))
              by_cases hp : t.status = Status.pending
              · rw [if_pos hp] at hk3
                have hk4 : PC.start = PC.awaiting k2 := hk3
                cases hk4
              · rw [if_neg hp] at hk3
                have hk4 : t.pc = PC.awaiting k2 := hk3
                rw [hd] at hk4
                cases hk4
        · rw [if_neg hall] at hk2
          exact hk2
  · intro htok
    cases e with
    | acquire i2 =>
        unfold progressAt
        simp only [step]
        split
        · next t2 heq =>
            by_cases hpcs : t2.pc = PC.start
            · rw [if_pos hpcs]
              by_cases hperm : 0 < s.permits
              · rw [if_pos hperm]
                have htok2 : ({ s with
                      permits := s.permits - 1,
                      tasks := modifyTask s.tasks i2 fun u =>
                        { u with pc := PC.granted } } : RunState).token = true := htok
                exact (progressOf_runBody_token htok2).trans
                  (progressOf_modify_preserved s.tasks i2
                    (fun u => { u with pc := PC.granted }) (fun u => rfl) i)
              · rw [if_neg hperm]
                exact progressOf_modify_preserved s.tasks i2
                  (fun u => { u with pc := PC.queued }) (fun u => rfl) i
            · rw [if_neg hpcs]
        · rfl
    | wake i2 =>
        unfold progressAt
        simp only [step]
        split
        · next t2 heq =>
            by_cases hpcs : t2.pc = PC.granted
            · rw [if_pos hpcs]
              exact progressOf_runBody_token htok
            · rw [if_neg hpcs]
        · rfl
    | remote i2 ok =>
        unfold progressAt
        simp only [step]
        split
        · next t2 heq =>
            split
            · next kk hpcw => exact progressOf_remoteSettled_token htok
            · rfl
        · rfl
    | cancel =>
        unfold progressAt
        rw [step_cancel_eq]
        apply progressOf_map_preserved
        intro u
        by_cases hp : u.status = Status.processing
        · rw [if_pos hp]
        · rw [if_neg hp]
    | startRun =>
        unfold progressAt
        simp only [step]
        by_cases hall : (s.tasks.all fun t => t.pc = PC.done) = true
        · rw [if_pos hall]
          apply progressOf_map_preserved
          intro u
          by_cases hp : u.status = Status.pending
          · rw [if_pos hp]
          · rw [if_neg hp]
        · rw [if_neg hall]

theorem cancellation_checkpoints_witness :
    statusAt (step 1 (run 1 (init 1 1) [Event.startRun, Event.acquire 0, Event.cancel])
      (Event.remote 0 true)) 0 = Status.cancelled
    ∧ endTimeAt (step 1 (run 1 (init 1 1) [Event.startRun, Event.acquire 0, Event.cancel])
        (Event.remote 0 true)) 0
      = some (run 1 (init 1 1) [Event.startRun, Event.acquire 0, Event.cancel]).clock
    ∧ pcAt (run 1 (init 1 1) [Event.startRun, Event.acquire 0, Event.cancel]) 0
      = PC.awaiting 0
    ∧ progressAt (step 1 (run 1 (init 1 1) [Event.startRun, Event.acquire 0, Event.cancel])
        (Event.remote 0 true)) 0
      = progressAt (run 1 (init 1 1) [Event.startRun, Event.acquire 0, Event.cancel]) 0 := by
  have h := cancellation_checkpoints 1
    (run 1 (init 1 1) [Event.startRun, Event.acquire 0, Event.cancel]) 0 0
    (Event.remote 0 true)
  obtain ⟨h1, h2⟩ := h.1 (by decide) (by decide)
  exact ⟨h1, h2, by decide, h.2.2 (by decide)⟩

/-- C9: when a remote step of one task rejects with an ordinary
(non-cancellation) error in a reachable state, exactly that task is
recorded `failed`, with the error message and a stamped `endTime`; its
promise resolves (program counter `done`, the catch block never rethrows,
the `finally` releases the permit so the rest of the batch continues), and
the store-visible fields of every sibling task are unchanged. -/
theorem per_task_failure_isolated (N n : Nat) (es : List Event) (i k : Nat)
    (htok : (run N (init N n) es).token = false)
    (hpc : pcAt (run N (init N n) es) i = PC.awaiting k) :
    statusAt (step N (run N (init N n) es) (Event.remote i false)) i = Status.failed
    ∧ endTimeAt (step N (run N (init N n) es) (Event.remote i false)) i
        = some (run N (init N n) es).clock
    ∧ errorAt (step N (run N (init N n) es) (Event.remote i false)) i
        = some "Upload failed"
    ∧ pcAt (step N (run N (init N n) es) (Event.remote i false)) i = PC.done
    ∧ ∀ j, j ≠ i →
        fileView (step N (run N (init N n) es) (Event.remote i false)) j
          = fileView (run N (init N n) es) j := by
  have h := inv_run (inv_init N n) es
  set s := run N (init N n) es with hsdef
  unfold pcAt pcOf at hpc
  cases hti : s.tasks[i]? with
  | none =>
      rw [hti] at hpc
      cases hpc
  | some t =>
      rw [hti] at hpc
      have hpc2 : t.pc = PC.awaiting k := hpc
      rw [step_remote_eq hti hpc2]
      have hnot : ¬ s.token = true := by
        rw [htok]
        exact Bool.false_ne_true
      refine ⟨?_, ?_, ?_, ?_, ?_⟩
      · show statusOf (remoteSettled s i k false).tasks i = Status.failed
        unfold remoteSettled
        rw [if_neg hnot, if_neg Bool.false_ne_true, statusOf_release,
          statusOf_modify_self _ hti]
      · show endTimeOf (remoteSettled s i k false).tasks i = some s.clock
        unfold remoteSettled
        rw [if_neg hnot, if_neg Bool.false_ne_true, endTimeOf_release,
          endTimeOf_modify_self _ hti]
      · show errorOf (remoteSettled s i k false).tasks i = some "Upload failed"
        unfold remoteSettled
        rw [if_neg hnot, if_neg Bool.false_ne_true, errorOf_release,
          errorOf_modify_self _ hti]
      · show pcOf (remoteSettled s i k false).tasks i = PC.done
        unfold remoteSettled
        rw [if_neg hnot, if_neg Bool.false_ne_true]
        have hnw : i ∉ ({ s with
            tasks := modifyTask s.tasks i fun u =>
              { u with status := Status.failed, endTime := some s.clock,
                       error := some "Upload failed", pc := PC.done } } : RunState).waiting := by
          intro hc
          obtain ⟨t2, ht2, hpcq⟩ := h.aux.waitMem i hc
          rw [hti] at ht2
          rw [(Option.some.inj ht2).symm] at hpcq
          rw [hpc2] at hpcq
          cases hpcq
        rw [pcOf_release_not_waiting hnw]
        exact pcOf_modify_self _ hti
      · intro j hj
        show fileViewOf (remoteSettled s i k false).tasks j = fileViewOf s.tasks j
        unfold remoteSettled
        rw [if_neg hnot, if_neg Bool.false_ne_true, fileViewOf_release]
        exact fileViewOf_modify_ne _ (fun hEq => hj hEq.symm)

theorem per_task_failure_isolated_witness :
    statusAt (step 1 (run 1 (init 1 2) [Event.startRun, Event.acquire 0])
      (Event.remote 0 false)) 0 = Status.failed
    ∧ errorAt (step 1 (run 1 (init 1 2) [Event.startRun, Event.acquire 0])
        (Event.remote 0 false)) 0 = some "Upload failed"
    ∧ fileView (step 1 (run 1 (init 1 2) [Event.startRun, Event.acquire 0])
        (Event.remote 0 false)) 1
      = fileView (run 1 (init 1 2) [Event.startRun, Event.acquire 0]) 1 := by
  have h := per_task_failure_isolated 1 2 [Event.startRun, Event.acquire 0] 0 0
    (by decide) (by decide)
  exact ⟨h.1, h.2.2.1, h.2.2.2.2 1 (by decide)⟩

/-! ## Facts used for the cancellation claim -/

theorem token_release (s : RunState) : (release s).token = s.token := by
  unfold release
  cases hw : s.waiting with
  | nil => rfl
  | cons j rest => rfl

theorem token_runBody (s : RunState) (i : Nat) : (runBody s i).token = s.token := by
  unfold runBody
  by_cases htok : s.token = true
  · rw [if_pos htok, token_release]
  · rw [if_neg htok]

theorem token_remoteSettled (s : RunState) (i k : Nat) (ok : Bool) :
    (remoteSettled s i k ok).token = s.token := by
  unfold remoteSettled
  by_cases htok : s.token = true
  · rw [if_pos htok]
    cases ok
    · rw [if_neg Bool.false_ne_true, token_release]
    · rw [if_pos rfl, token_release]
  · rw [if_neg htok]
    cases ok
    · rw [if_neg Bool.false_ne_true, token_release]
    · rw [if_pos rfl]
      by_cases hk2 : k < 2
      · rw [if_pos hk2]
      · rw [if_neg hk2, token_release]

/-- The three worker events never change the token. -/
theorem token_step_worker (N : Nat) (s : RunState) :
    (∀ i, (step N s (Event.acquire i)).token = s.token)
    ∧ (∀ i, (step N s (Event.wake i)).token = s.token)
    ∧ (∀ i ok, (step N s (Event.remote i ok)).token = s.token) := by
  refine ⟨?_, ?_, ?_⟩
  · intro i
    simp only [step]
    split
    · next t heq =>
        by_cases hpcs : t.pc = PC.start
        · rw [if_pos hpcs]
          by_cases hperm : 0 < s.permits
          · rw [if_pos hperm]
            exact token_runBody _ i
          · rw [if_neg hperm]
        · rw [if_neg hpcs]
    · rfl
  · intro i
    simp only [step]
    split
    · next t heq =>
        by_cases hpcs : t.pc = PC.granted
        · rw [if_pos hpcs]
          exact token_runBody s i
        · rw [if_neg hpcs]
    · rfl
  · intro i ok
    simp only [step]
    split
    · next t heq =>
        split
        · next k hpcw => exact token_remoteSettled s i k ok
        · rfl
    · rfl

theorem pcOf_runBody_ne_disj (s : RunState) {i2 i : Nat} (hne : i2 ≠ i) :
    pcOf (runBody s i2).tasks i = pcOf s.tasks i
      ∨ pcOf (runBody s i2).tasks i = PC.granted := by
  unfold runBody
  by_cases htok : s.token = true
  · rw [if_pos htok]
    cases pcOf_release_disj { s with
        tasks := modifyTask s.tasks i2 fun t =>
          { t with status := Status.cancelled, pc := PC.done } } i with
    | inl hd =>
        left
        rw [hd]
        exact pcOf_modify_ne _ hne
    | inr hd =>
        right
        exact hd
  · rw [if_neg htok]
    left
    exact pcOf_modify_ne _ hne

theorem pcOf_remoteSettled_ne_disj (s : RunState) (k : Nat) (ok : Bool) {i2 i : Nat}
    (hne : i2 ≠ i) :
    pcOf (remoteSettled s i2 k ok).tasks i = pcOf s.tasks i
      ∨ pcOf (remoteSettled s i2 k ok).tasks i = PC.granted := by
  have main : ∀ f : Task → Task,
      pcOf (release { s with tasks := modifyTask s.tasks i2 f }).tasks i = pcOf s.tasks i
        ∨ pcOf (release { s with tasks := modifyTask s.tasks i2 f }).tasks i = PC.granted := by
    intro f
    cases pcOf_release_disj { s with tasks := modifyTask s.tasks i2 f } i with
    | inl hd =>
        left
        rw [hd]
        exact pcOf_modify_ne _ hne
    | inr hd =>
        right
        exact hd
  unfold remoteSettled
  by_cases htok : s.token = true
  · rw [if_pos htok]
    cases ok
    · rw [if_neg Bool.false_ne_true]
      exact main _
    · rw [if_pos rfl]
      exact main _
  · rw [if_neg htok]
    cases ok
    · rw [if_neg Bool.false_ne_true]
      exact main _
    · rw [if_pos rfl]
      by_cases hk2 : k < 2
      · rw [if_pos hk2]
        left
        exact pcOf_modify_ne _ hne
      · rw [if_neg hk2]
        exact main _

/-- For a spectator task that is not in the waiting list, `runBody` of
another task does not change its program counter. -/
theorem pcOf_runBody_ne_preserve {s : RunState} {i2 i : Nat} (hne : i2 ≠ i)
    (hnw : i ∉ s.waiting) :
    pcOf (runBody s i2).tasks i = pcOf s.tasks i := by
  unfold runBody
  by_cases htok : s.token = true
  · rw [if_pos htok]
    rw [pcOf_release_not_waiting (show i ∉ ({ s with
        tasks := modifyTask s.tasks i2 fun t =>
          { t with status := Status.cancelled, pc := PC.done } } : RunState).waiting from hnw)]
    exact pcOf_modify_ne _ hne
  · rw [if_neg htok]
    exact pcOf_modify_ne _ hne

/-- For a spectator task that is not in the waiting list, the settling of
another task's remote call does not change its program counter. -/
theorem pcOf_remoteSettled_ne_preserve {s : RunState} {i2 k : Nat} {ok : Bool} {i : Nat}
    (hne : i2 ≠ i) (hnw : i ∉ s.waiting) :
    pcOf (remoteSettled s i2 k ok).tasks i = pcOf s.tasks i := by
  have main : ∀ f : Task → Task,
      pcOf (release { s with tasks := modifyTask s.tasks i2 f }).tasks i
        = pcOf s.tasks i := by
    intro f
    rw [pcOf_release_not_waiting (show i ∉ ({ s with
        tasks := modifyTask s.tasks i2 f } : RunState).waiting from hnw)]
    exact pcOf_modify_ne _ hne
  unfold remoteSettled
  by_cases htok : s.token = true
  · rw [if_pos htok]
    cases ok
    · rw [if_neg Bool.false_ne_true]
      exact main _
    · rw [if_pos rfl]
      exact main _
  · rw [if_neg htok]
    cases ok
    · rw [if_neg Bool.false_ne_true]
      exact main _
    · rw [if_pos rfl]
      by_cases hk2 : k < 2
      · rw [if_pos hk2]
        exact pcOf_modify_ne _ hne
      · rw [if_neg hk2]
        exact main _

/-- A task that is settled (`done`) and not `pending` keeps its program
counter at `done` under every step. -/
theorem pc_done_stays {N : Nat} {s : RunState} {i : Nat} (h : Inv N s)
    (hpc : pcAt s i = PC.done) (hst : statusAt s i ≠ Status.pending) (e : Event) :
    pcAt (step N s e) i = PC.done := by
  have hnw : i ∉ s.waiting := by
    intro hc
    obtain ⟨t2, ht2, hpcq⟩ := h.aux.waitMem i hc
    unfold pcAt pcOf at hpc
    rw [ht2] at hpc
    have hd : t2.pc = PC.done := hpc
    rw [hd] at hpcq
    cases hpcq
  cases e with
  | acquire i2 =>
      unfold pcAt at hpc ⊢
      simp only [step]
      split
      · next t2 heq =>
          by_cases hii : i2 = i
          · subst hii
            unfold pcOf at hpc
            rw [heq] at hpc
            have hd : t2.pc = PC.done := hpc
            rw [hd]
            rw [if_neg (by intro hc; cases hc)]
            unfold pcOf
            rw [heq]
            exact hd
          · by_cases hpcs : t2.pc = PC.start
            · rw [if_pos hpcs]
              by_cases hperm : 0 < s.permits
              · rw [if_pos hperm]
                have hch : pcOf (runBody { s with
                    permits := s.permits - 1,
                    tasks := modifyTask s.tasks i2 fun u =>
                      { u with pc := PC.granted } } i2).tasks i
                    = pcOf (modifyTask s.tasks i2 fun u => { u with pc := PC.granted }) i :=
                  pcOf_runBody_ne_preserve hii hnw
                rw [hch, pcOf_modify_ne _ hii]
                exact hpc
              · rw [if_neg hperm]
                rw [pcOf_modify_ne _ hii]
                exact hpc
            · rw [if_neg hpcs]
              exact hpc
      · exact hpc
  | wake i2 =>
      unfold pcAt at hpc ⊢
      simp only [step]
      split
      · next t2 heq =>
          by_cases hii : i2 = i
          · subst hii
            unfold pcOf at hpc
            rw [heq] at hpc
            have hd : t2.pc = PC.done := hpc
            rw [hd]
            rw [if_neg (by intro hc; cases hc)]
            unfold pcOf
            rw [heq]
            exact hd
          · by_cases hpcs : t2.pc = PC.granted
            · rw [if_pos hpcs]
              rw [pcOf_runBody_ne_preserve hii hnw]
              exact hpc
            · rw [if_neg hpcs]
              exact hpc
      · exact hpc
  | remote i2 ok =>
      unfold pcAt at hpc ⊢
      simp only [step]
      split
      · next t2 heq =>
          split
          · next k hpcw =>
              by_cases hii : i2 = i
              · subst hii
                unfold pcOf at hpc
                rw [heq] at hpc
                have hd : t2.pc = PC.done := hpc
                rw [hd] at hpcw
                cases hpcw
              · rw [pcOf_remoteSettled_ne_preserve hii hnw]
                exact hpc
          · exact hpc
      · exact hpc
  | cancel =>
      unfold pcAt at hpc ⊢
      rw [step_cancel_eq]
      have hmap : pcOf (s.tasks.map fun t =>
          if t.status = Status.processing then { t with status := Status.cancelled }
          else t) i = pcOf s.tasks i := by
        apply pcOf_map_preserved
        intro u
        by_cases hp : u.status = Status.processing
        · rw [if_pos hp]
        · rw [if_neg hp]
      have goal2 : pcOf (s.tasks.map fun t =>
          if t.status = Status.processing then { t with status := Status.cancelled }
          else t) i = PC.done := by
        rw [hmap]
        exact hpc
      exact goal2
  | startRun =>
      unfold pcAt at hpc ⊢
      simp only [step]
      by_cases hall : (s.tasks.all fun t => t.pc = PC.done) = true
      · rw [if_pos hall]
        unfold pcOf at hpc ⊢
        rw [List.getElem?_map]
        cases hti : s.tasks[i]? with
        | none => rfl
        | some t =>
            rw [hti] at hpc
            rw [Option.map_some']
            have hd : t.pc = PC.done := hpc
            have hp : ¬ t.status = Status.pending := by
              intro hc
              apply hst
              unfold statusAt statusOf
              rw [hti]
              exact hc
            rw [if_neg hp]
            exact hd
      · rw [if_neg hall]
        exact hpc

/-- State of one task after a cancellation: either it is still `pending`
and waiting at the gate (with the token signalled), or it has been marked
`cancelled` and its coroutine has finished. -/
def PendingAfterCancel (s : RunState) (i : Nat) : Prop :=
  (statusAt s i = Status.pending
    ∧ (pcAt s i = PC.start ∨ pcAt s i = PC.queued ∨ pcAt s i = PC.granted)
    ∧ s.token = true)
  ∨ (statusAt s i = Status.cancelled ∧ pcAt s i = PC.done)

/-- The continuation block of a task that holds a permit, run while the
token is signalled, marks the task `cancelled` and finishes it. -/
theorem runBody_token_self {s : RunState} {i : Nat} {t : Task}
    (htok : s.token = true) (hti : s.tasks[i]? = some t) (hnw : i ∉ s.waiting) :
    statusOf (runBody s i).tasks i = Status.cancelled
    ∧ pcOf (runBody s i).tasks i = PC.done := by
  unfold runBody
  rw [if_pos htok]
  constructor
  · rw [statusOf_release, statusOf_modify_self _ hti]
  · rw [pcOf_release_not_waiting (show i ∉ ({ s with
        tasks := modifyTask s.tasks i fun t =>
          { t with status := Status.cancelled, pc := PC.done } } : RunState).waiting from hnw)]
    exact pcOf_modify_self _ hti

theorem pendingAfterCancel_step {N : Nat} {s : RunState} {i : Nat}
    (h : Inv N s) (hp : PendingAfterCancel s i) (e : Event) :
    PendingAfterCancel (step N s e) i := by
  rcases hp with ⟨hpend, hpc3, htok⟩ | ⟨hcanc, hdone⟩
  · -- still pending, gate side
    obtain ⟨t0, hti, hts0, hpcs0⟩ : ∃ t0, s.tasks[i]? = some t0
        ∧ t0.status = Status.pending
        ∧ (t0.pc = PC.start ∨ t0.pc = PC.queued ∨ t0.pc = PC.granted) := by
      cases hti : s.tasks[i]? with
      | none =>
          unfold pcAt pcOf at hpc3
          rw [hti] at hpc3
          rcases hpc3 with hc | hc | hc <;> cases hc
      | some t0 =>
          unfold statusAt statusOf at hpend
          unfold pcAt pcOf at hpc3
          rw [hti] at hpend hpc3
          exact ⟨t0, rfl, hpend, hpc3⟩
    cases e with
    | acquire i2 =>
        simp only [step]
        split
        · next t2 heq =>
            by_cases hii : i2 = i
            · subst hii
              have ht2 : t2 = t0 := by
                rw [hti] at heq
                exact (Option.some.inj heq).symm
              subst ht2
              by_cases hpcs : t2.pc = PC.start
              · rw [if_pos hpcs]
                by_cases hperm : 0 < s.permits
                · rw [if_pos hperm]
                  right
                  have hnwi : i2 ∉ s.waiting := by
                    intro hc
                    obtain ⟨t3, ht3, hpcq⟩ := h.aux.waitMem i2 hc
                    rw [hti] at ht3
                    rw [(Option.some.inj ht3).symm] at hpcq
                    rw [hpcs] at hpcq
                    cases hpcq
                  have hmidLookup := getElem?_modifyTask_self
                    (fun u => { u with pc := PC.granted }) hti
                  have hrb := runBody_token_self
                    (show ({ s with
                        permits := s.permits - 1,
                        tasks := modifyTask s.tasks i2 fun u =>
                          { u with pc := PC.granted } } : RunState).token = true from htok)
                    hmidLookup
                    (show i2 ∉ ({ s with
                        permits := s.permits - 1,
                        tasks := modifyTask s.tasks i2 fun u =>
                          { u with pc := PC.granted } } : RunState).waiting from hnwi)
                  exact ⟨hrb.1, hrb.2⟩
                · rw [if_neg hperm]
                  left
                  refine ⟨?_, ?_, htok⟩
                  · show statusOf (modifyTask s.tasks i2 fun u =>
                        { u with pc := PC.queued }) i2 = Status.pending
                    rw [statusOf_modify_self _ hti]
                    exact hts0
                  · refine Or.inr (Or.inl ?_)
                    show pcOf (modifyTask s.tasks i2 fun u =>
                        { u with pc := PC.queued }) i2 = PC.queued
                    rw [pcOf_modify_self _ hti]
              · rw [if_neg hpcs]
                left
                exact ⟨hpend, hpc3, htok⟩
            · by_cases hpcs : t2.pc = PC.start
              · rw [if_pos hpcs]
                by_cases hperm : 0 < s.permits
                · rw [if_pos hperm]
                  left
                  refine ⟨?_, ?_, ?_⟩
                  · show statusOf (runBody { s with
                        permits := s.permits - 1,
                        tasks := modifyTask s.tasks i2 fun u =>
                          { u with pc := PC.granted } } i2).tasks i = Status.pending
                    rw [statusOf_runBody_ne hii, statusOf_modify_ne _ hii]
                    exact hpend
                  · rcases pcOf_runBody_ne_disj { s with
                        permits := s.permits - 1,
                        tasks := modifyTask s.tasks i2 fun u =>
                          { u with pc := PC.granted } } hii with hd | hd
                    · have hd2 := hd.trans
                        (pcOf_modify_ne (fun u => { u with pc := PC.granted }) hii)
                      rcases hpc3 with hc | hc | hc
                      · exact Or.inl (hd2.trans hc)
                      · exact Or.inr (Or.inl (hd2.trans hc))
                      · exact Or.inr (Or.inr (hd2.trans hc))
                    · exact Or.inr (Or.inr hd)
                  · show (runBody { s with
                        permits := s.permits - 1,
                        tasks := modifyTask s.tasks i2 fun u =>
                          { u with pc := PC.granted } } i2).token = true
                    rw [token_runBody]
                    exact htok
                · rw [if_neg hperm]
                  left
                  refine ⟨?_, ?_, htok⟩
                  · show statusOf (modifyTask s.tasks i2 fun u =>
                        { u with pc := PC.queued }) i = Status.pending
                    rw [statusOf_modify_ne _ hii]
                    exact hpend
                  · have hd2 := @pcOf_modify_ne s.tasks i2 i
                      (fun u => { u with pc := PC.queued }) hii
                    rcases hpc3 with hc | hc | hc
                    · exact Or.inl (hd2.trans hc)
                    · exact Or.inr (Or.inl (hd2.trans hc))
                    · exact Or.inr (Or.inr (hd2.trans hc))
              · rw [if_neg hpcs]
                left
                exact ⟨hpend, hpc3, htok⟩
        · left
          exact ⟨hpend, hpc3, htok⟩
    | wake i2 =>
        simp only [step]
        split
        · next t2 heq =>
            by_cases hii : i2 = i
            · subst hii
              have ht2 : t2 = t0 := by
                rw [hti] at heq
                exact (Option.some.inj heq).symm
              subst ht2
              by_cases hpcs : t2.pc = PC.granted
              · rw [if_pos hpcs]
                right
                have hnwi : i2 ∉ s.waiting := by
                  intro hc
                  obtain ⟨t3, ht3, hpcq⟩ := h.aux.waitMem i2 hc
                  rw [hti] at ht3
                  rw [(Option.some.inj ht3).symm] at hpcq
                  rw [hpcs] at hpcq
                  cases hpcq
                have hrb := runBody_token_self htok hti hnwi
                exact ⟨hrb.1, hrb.2⟩
              · rw [if_neg hpcs]
                left
                exact ⟨hpend, hpc3, htok⟩
            · by_cases hpcs : t2.pc = PC.granted
              · rw [if_pos hpcs]
                left
                refine ⟨?_, ?_, ?_⟩
                · show statusOf (runBody s i2).tasks i = Status.pending
                  rw [statusOf_runBody_ne hii]
                  exact hpend
                · rcases pcOf_runBody_ne_disj s hii with hd | hd
                  · rcases hpc3 with hc | hc | hc
                    · exact Or.inl (hd.trans hc)
                    · exact Or.inr (Or.inl (hd.trans hc))
                    · exact Or.inr (Or.inr (hd.trans hc))
                  · exact Or.inr (Or.inr hd)
                · show (runBody s i2).token = true
                  rw [token_runBody]
                  exact htok
              · rw [if_neg hpcs]
                left
                exact ⟨hpend, hpc3, htok⟩
        · left
          exact ⟨hpend, hpc3, htok⟩
    | remote i2 ok =>
        simp only [step]
        split
        · next t2 heq =>
            split
            · next k hpcw =>
                by_cases hii : i2 = i
                · subst hii
                  have ht2 : t2 = t0 := by
                    rw [hti] at heq
                    exact (Option.some.inj heq).symm
                  subst ht2
                  rcases hpcs0 with hc | hc | hc <;> (rw [hc] at hpcw; cases hpcw)
                · left
                  refine ⟨?_, ?_, ?_⟩
                  · show statusOf (remoteSettled s i2 k ok).tasks i = Status.pending
                    rw [statusOf_remoteSettled_ne hii]
                    exact hpend
                  · rcases pcOf_remoteSettled_ne_disj s k ok hii with hd | hd
                    · rcases hpc3 with hc | hc | hc
                      · exact Or.inl (hd.trans hc)
                      · exact Or.inr (Or.inl (hd.trans hc))
                      · exact Or.inr (Or.inr (hd.trans hc))
                    · exact Or.inr (Or.inr hd)
                  · show (remoteSettled s i2 k ok).token = true
                    rw [token_remoteSettled]
                    exact htok
            · left
              exact ⟨hpend, hpc3, htok⟩
        · left
          exact ⟨hpend, hpc3, htok⟩
    | cancel =>
        rw [step_cancel_eq]
        left
        refine ⟨?_, ?_, rfl⟩
        · show statusOf (s.tasks.map fun t =>
              if t.status = Status.processing then { t with status := Status.cancelled }
              else t) i = Status.pending
          unfold statusOf
          rw [List.getElem?_map, hti, Option.map_some']
          rw [if_neg (show ¬ t0.status = Status.processing by rw [hts0]; decide)]
          exact hts0
        · have hmap : pcOf (s.tasks.map fun t =>
              if t.status = Status.processing then { t with status := Status.cancelled }
              else t) i = pcOf s.tasks i := by
            apply pcOf_map_preserved
            intro u
            by_cases hpu : u.status = Status.processing
            · rw [if_pos hpu]
            · rw [if_neg hpu]
          rcases hpc3 with hc | hc | hc
          · exact Or.inl (hmap.trans hc)
          · exact Or.inr (Or.inl (hmap.trans hc))
          · exact Or.inr (Or.inr (hmap.trans hc))
    | startRun =>
        simp only [step]
        have hallF : ¬ ((s.tasks.all fun t => t.pc = PC.done) = true) := by
          intro hall
          have hd := of_decide_eq_true (List.all_eq_true.mp hall t0 (mem_of_lookup hti))
          rcases hpcs0 with hc | hc | hc <;> (rw [hd] at hc; cases hc)
        rw [if_neg hallF]
        left
        exact ⟨hpend, hpc3, htok⟩
  · -- already marked cancelled and settled
    right
    constructor
    · have hterm : isTerminalStatus (statusAt s i) = true := by
        rw [hcanc]
        rfl
      rw [terminal_step h hterm e]
      exact hcanc
    · exact pc_done_stays h hdone (by rw [hcanc]; decide) e

theorem pendingAfterCancel_run {N : Nat} {s : RunState} {i : Nat}
    (h : Inv N s) (hp : PendingAfterCancel s i) (es : List Event) :
    PendingAfterCancel (run N s es) i := by
  induction es generalizing s with
  | nil => exact hp
  | cons e es ih =>
      simp only [run, List.foldl_cons]
      exact ih (inv_step h e) (pendingAfterCancel_step h hp e)


/-- C3: cancelling a run.  From any reachable state of the model: if task
`i` is still `pending` at the moment `handleCancel` fires (its coroutine
not yet finished), then after the cancel step and any further schedule the
task is only ever `pending` or `cancelled` -- in particular it never
enters `processing`, so it never calls the external collaborator -- and
once its coroutine has finished its status is `cancelled`.  If task `i` is
already `processing` at that moment, then after the cancel step and any
further schedule its status is `cancelled`, hence one of the three
terminal outcomes `cancelled`, `completed`, `failed`. -/
theorem cancel_run_outcome (N n : Nat) (es esPost : List Event) (i : Nat) :
    (statusAt (run N (init N n) es) i = Status.pending →
      pcAt (run N (init N n) es) i ≠ PC.done →
        (statusAt (run N (step N (run N (init N n) es) Event.cancel) esPost) i
            = Status.pending
          ∨ statusAt (run N (step N (run N (init N n) es) Event.cancel) esPost) i
            = Status.cancelled)
        ∧ statusAt (run N (step N (run N (init N n) es) Event.cancel) esPost) i
            ≠ Status.processing
        ∧ (pcAt (run N (step N (run N (init N n) es) Event.cancel) esPost) i = PC.done →
            statusAt (run N (step N (run N (init N n) es) Event.cancel) esPost) i
              = Status.cancelled))
    ∧ (statusAt (run N (init N n) es) i = Status.processing →
        statusAt (run N (step N (run N (init N n) es) Event.cancel) esPost) i
          = Status.cancelled
        ∧ (statusAt (run N (step N (run N (init N n) es) Event.cancel) esPost) i
              = Status.cancelled
          ∨ statusAt (run N (step N (run N (init N n) es) Event.cancel) esPost) i
              = Status.completed
          ∨ statusAt (run N (step N (run N (init N n) es) Event.cancel) esPost) i
              = Status.failed)) := by
  have hInv : Inv N (run N (init N n) es) := inv_run (inv_init N n) es
  constructor
  · intro hpend hnd
    cases hti : (run N (init N n) es).tasks[i]? with
    | none =>
        exfalso
        apply hnd
        simp only [pcAt, pcOf, hti]
    | some t =>
        have hts : t.status = Status.pending := by
          have h2 := hpend
          unfold statusAt statusOf at h2
          rw [hti] at h2
          exact h2
        have htpc : t.pc = PC.start ∨ t.pc = PC.queued ∨ t.pc = PC.granted := by
          cases hpc : t.pc with
          | start => exact Or.inl rfl
          | queued => exact Or.inr (Or.inl rfl)
          | granted => exact Or.inr (Or.inr rfl)
          | awaiting k =>
              exfalso
              rcases hInv.aux.awaitingStatus t (mem_of_lookup hti) k hpc with hc | hc <;>
                (rw [hts] at hc; cases hc)
          | done =>
              exfalso
              apply hnd
              simp only [pcAt, pcOf, hti]
              exact hpc
        have hp1 : PendingAfterCancel (step N (run N (init N n) es) Event.cancel) i := by
          left
          refine ⟨?_, ?_, rfl⟩
          · show statusOf ((run N (init N n) es).tasks.map fun u =>
                if u.status = Status.processing then { u with status := Status.cancelled }
                else u) i = Status.pending
            unfold statusOf
            rw [List.getElem?_map, hti, Option.map_some']
            rw [if_neg (show ¬ t.status = Status.processing by rw [hts]; decide)]
            exact hts
          · have hmap : pcOf ((run N (init N n) es).tasks.map fun u =>
                if u.status = Status.processing then { u with status := Status.cancelled }
                else u) i = pcOf (run N (init N n) es).tasks i := by
              apply pcOf_map_preserved
              intro u
              by_cases hpu : u.status = Status.processing
              · rw [if_pos hpu]
              · rw [if_neg hpu]
            have hpc0 : pcOf (run N (init N n) es).tasks i = t.pc := by
              unfold pcOf
              rw [hti]
            rcases htpc with hc | hc | hc
            · exact Or.inl ((hmap.trans hpc0).trans hc)
            · exact Or.inr (Or.inl ((hmap.trans hpc0).trans hc))
            · exact Or.inr (Or.inr ((hmap.trans hpc0).trans hc))
        have hrun := pendingAfterCancel_run (inv_step hInv Event.cancel) hp1 esPost
        rcases hrun with ⟨hst, hpc2, _⟩ | ⟨hst, hpcdone⟩
        · refine ⟨Or.inl hst, ?_, ?_⟩
          · rw [hst]
            decide
          · intro hd
            exfalso
            rcases hpc2 with hc | hc | hc <;> (rw [hd] at hc; cases hc)
        · refine ⟨Or.inr hst, ?_, fun _ => hst⟩
          rw [hst]
          decide
  · intro hproc
    cases hti : (run N (init N n) es).tasks[i]? with
    | none =>
        exfalso
        have hp : statusAt (run N (init N n) es) i = Status.pending := by
          unfold statusAt statusOf
          rw [hti]
        rw [hp] at hproc
        cases hproc
    | some t =>
        have hts : t.status = Status.processing := by
          have h2 := hproc
          unfold statusAt statusOf at h2
          rw [hti] at h2
          exact h2
        have hcanc : statusAt (step N (run N (init N n) es) Event.cancel) i
            = Status.cancelled := by
          show statusOf ((run N (init N n) es).tasks.map fun u =>
              if u.status = Status.processing then { u with status := Status.cancelled }
              else u) i = Status.cancelled
          unfold statusOf
          rw [List.getElem?_map, hti, Option.map_some']
          rw [if_pos hts]
        have hfin := terminal_run (inv_step hInv Event.cancel)
          (by rw [hcanc]; rfl) esPost
        rw [hcanc] at hfin
        exact ⟨hfin, Or.inl hfin⟩

/-- Witness for C3 at a concrete schedule: `N = 1`, two tasks; the run
starts and task 0 begins processing; task 1 is still pending when the run
is cancelled; afterwards task 1 never processes and task 0 ends
`cancelled`. -/
theorem cancel_run_outcome_witness :
    (statusAt (run 1 (init 1 2) [Event.startRun, Event.acquire 0]) 1 = Status.pending
      ∧ pcAt (run 1 (init 1 2) [Event.startRun, Event.acquire 0]) 1 ≠ PC.done
      ∧ statusAt (run 1 (step 1 (run 1 (init 1 2) [Event.startRun, Event.acquire 0])
            Event.cancel) [Event.acquire 1, Event.remote 0 true]) 1 ≠ Status.processing)
    ∧ (statusAt (run 1 (init 1 2) [Event.startRun, Event.acquire 0]) 0 = Status.processing
      ∧ statusAt (run 1 (step 1 (run 1 (init 1 2) [Event.startRun, Event.acquire 0])
            Event.cancel) [Event.acquire 1, Event.remote 0 true]) 0 = Status.cancelled) :=
  ⟨⟨by decide, by decide,
      ((cancel_run_outcome 1 2 [Event.startRun, Event.acquire 0]
        [Event.acquire 1, Event.remote 0 true] 1).1 (by decide) (by decide)).2.1⟩,
   ⟨by decide,
      ((cancel_run_outcome 1 2 [Event.startRun, Event.acquire 0]
        [Event.acquire 1, Event.remote 0 true] 0).2 (by decide)).1⟩⟩


/-! ## Claims about the store: deduplication, estimator, rate-limit counter,
frame of updateFileStatus -/

/-- A concrete selected file used in the deduplication counterexample. -/
def c5file : RawFile where
  name := "a.txt"
  size := 1
  lastModified := 2
  fileType := "text/plain"

/-- C5 counterexample: `addFiles` filters the incoming batch only against
the ids already in the store, so the same file passed twice in ONE call
produces two tasks with the same key, not one. -/
theorem addFiles_dup_in_one_call :
    (addFiles [] [c5file, c5file]).countP (fun g => g.id == fileKey c5file) = 2
    ∧ ¬ (addFiles [] [c5file, c5file]).countP (fun g => g.id == fileKey c5file) = 1 := by
  decide

/-- C5 amended: deduplication across `addFiles` calls.  If the store does
not yet contain the key of `f`, adding `f` appends exactly one task with
that key; re-adding `f` afterwards (a second call) is a no-op. -/
theorem addFiles_dedup_across_calls (files : List UploadFile) (f : RawFile)
    (h : ((files.map fun g => g.id).contains (fileKey f)) = false) :
    addFiles files [f] = files ++ [newUploadFile f]
    ∧ files.countP (fun g => g.id == fileKey f) = 0
    ∧ (addFiles files [f]).countP (fun g => g.id == fileKey f) = 1
    ∧ addFiles (addFiles files [f]) [f] = addFiles files [f] := by
  have hnm : fileKey f ∉ files.map fun g => g.id := by
    have h2 : (files.map fun g => g.id).elem (fileKey f) = false := h
    rw [List.elem_eq_mem, decide_eq_false_iff_not] at h2
    exact h2
  have hids : ∀ g ∈ files, (g.id == fileKey f) = false := by
    intro g hg
    rw [beq_eq_false_iff_ne]
    intro he
    exact hnm (List.mem_map.mpr ⟨g, hg, he⟩)
  have hadd : addFiles files [f] = files ++ [newUploadFile f] := by
    unfold addFiles
    simp only [List.filter, h]
    rfl
  have hcnt0 : files.countP (fun g => g.id == fileKey f) = 0 :=
    List.countP_eq_zero.mpr (by
      intro g hg
      rw [hids g hg]
      intro hc
      cases hc)
  refine ⟨hadd, hcnt0, ?_, ?_⟩
  · rw [hadd, List.countP_append, hcnt0]
    simp [List.countP_cons, newUploadFile]
  · rw [hadd]
    unfold addFiles
    have hc2 : (((files ++ [newUploadFile f]).map fun g => g.id).contains
        (fileKey f)) = true := by
      show ((files ++ [newUploadFile f]).map fun g => g.id).elem (fileKey f) = true
      rw [List.elem_eq_mem, decide_eq_true_eq]
      apply List.mem_map.mpr
      exact ⟨newUploadFile f, List.mem_append_right _ (List.mem_cons_self _ _), rfl⟩
    simp only [List.filter, hc2]
    simp

/-- Witness for the amended C5 statement at a concrete store and file. -/
theorem addFiles_dedup_across_calls_witness :
    ((([] : List UploadFile).map fun g => g.id).contains (fileKey c5file)) = false
    ∧ addFiles [] [c5file] = [] ++ [newUploadFile c5file]
    ∧ addFiles (addFiles [] [c5file]) [c5file] = addFiles [] [c5file] :=
  ⟨by decide,
   (addFiles_dedup_across_calls [] c5file (by decide)).1,
   (addFiles_dedup_across_calls [] c5file (by decide)).2.2.2⟩

/-- Earliest-completed task of the weighting counterexample: 2 bytes over
2 ms, speed 1 byte/ms; it sits first in the files array and completes
first. -/
def c6A : UploadFile where
  id := "A"
  file := ⟨"A", 2, 0, "t"⟩
  status := .completed
  progress := 100
  startTime := some 0
  endTime := some 2

/-- Most recently completed task of the weighting counterexample: 9 bytes
over 3 ms, speed 3 bytes/ms. -/
def c6B : UploadFile where
  id := "B"
  file := ⟨"B", 9, 0, "t"⟩
  status := .completed
  progress := 100
  startTime := some 2
  endTime := some 5

/-- C6: the loop computes weight `completedFiles.length - index` over the
files in array order, which gives the FIRST (earliest-completed) entry the
largest weight: with speeds 1 and 3 the code produces (1*2 + 3*1)/3 = 5/3,
while weighting the most recently completed task highest, as the claim and
the comment above the loop describe, produces (1*1 + 3*2)/3 = 7/3. -/
theorem weightedAvgSpeed_weights_earliest_highest :
    weightedAvgSpeed [c6A, c6B] = 5 / 3
    ∧ weightedAvgSpeedSpecRecency [c6A, c6B] = 7 / 3
    ∧ weightedAvgSpeed [c6A, c6B] ≠ weightedAvgSpeedSpecRecency [c6A, c6B] := by
  have h1 : weightedAvgSpeed [c6A, c6B] = 5 / 3 := by
    simp [weightedAvgSpeed, fileSpeed, c6A, c6B, List.enum, List.enumFrom]
    norm_num
  have h2 : weightedAvgSpeedSpecRecency [c6A, c6B] = 7 / 3 := by
    simp [weightedAvgSpeedSpecRecency, fileSpeed, c6A, c6B, List.enum, List.enumFrom]
    norm_num
  refine ⟨h1, h2, ?_⟩
  rw [h1, h2]
  norm_num

/-- First completed task of the concrete ETA scenario: 10 MB in 1 s. -/
def c7A : UploadFile where
  id := "A"
  file := ⟨"A", 10000000, 0, "t"⟩
  status := .completed
  progress := 100
  startTime := some 0
  endTime := some 1000

/-- Second completed task of the concrete ETA scenario: 20 MB in 2 s. -/
def c7B : UploadFile where
  id := "B"
  file := ⟨"B", 20000000, 0, "t"⟩
  status := .completed
  progress := 100
  startTime := some 1000
  endTime := some 3000

/-- Remaining task of the concrete ETA scenario: 100 MB still pending. -/
def c7C : UploadFile where
  id := "C"
  file := ⟨"C", 100000000, 0, "t"⟩
  status := .pending
  progress := 0

/-- C7: with completed tasks of 10 MB / 1 s and 20 MB / 2 s (both 10000
bytes/ms), 100 MB remaining, and parallelCount 1, the weighted average
speed is 10000 bytes/ms, the efficiency factor is 0.8, and the estimator
returns now + 12500 ms = now + 12.5 s, for every value of `Date.now()`. -/
theorem eta_concrete_case (now : Rat) :
    weightedAvgSpeed ([c7A, c7B, c7C].filter isCompletedWithTimes) = 10000
    ∧ efficiencyFactor 1 = 4 / 5
    ∧ getEstimatedCompletionTime
        { files := [c7A, c7B, c7C], uploadStartTime := some 0,
          isUploading := true, parallelCount := 1 } now = some (now + 12500) := by
  refine ⟨?_, ?_, ?_⟩
  · simp [weightedAvgSpeed, fileSpeed, isCompletedWithTimes, c7A, c7B, c7C,
      List.enum, List.enumFrom]
    norm_num
  · unfold efficiencyFactor
    norm_num
  · simp [getEstimatedCompletionTime, weightedAvgSpeed, fileSpeed,
      isCompletedWithTimes, efficiencyFactor, c7A, c7B, c7C, List.enum,
      List.enumFrom]
    norm_num

/-- C8 counterexample: one XMLHttpRequest answered with status 429 fires
both the `readystatechange` listener (readyState 4) and the `load`
listener installed by `interceptXMLHttpRequest.send`, each of which
increments, so one 429 event adds 2, not exactly 1; and `clearFiles`
also resets the counter to 0 outside the start of a run. -/
theorem rate_limit_double_count :
    rlStep 0 (RlEvent.xhrResponse 429) = 2
    ∧ ¬ rlStep 0 (RlEvent.xhrResponse 429) = 1
    ∧ rlStep 5 RlEvent.clearAll = 0 := by
  decide

/-- C8 amended: the exact transitions of `rateLimitCount`.  A 429 XHR
response adds 2 (two listeners fire), a 429 fetch response adds 1, a
matching console-error adds 1, non-429 traffic and non-matching messages
leave it unchanged, and it is reset to 0 both by `resetRateLimitCount` at
run start and by `clearFiles`. -/
theorem rate_limit_counter_transitions (c status : Nat) (h : status ≠ 429) :
    rlStep c (RlEvent.xhrResponse 429) = c + 2
    ∧ rlStep c (RlEvent.fetchResponse 429) = c + 1
    ∧ rlStep c (RlEvent.consoleError true) = c + 1
    ∧ rlStep c (RlEvent.xhrResponse status) = c
    ∧ rlStep c (RlEvent.fetchResponse status) = c
    ∧ rlStep c (RlEvent.consoleError false) = c
    ∧ rlStep c RlEvent.runStart = 0
    ∧ rlStep c RlEvent.clearAll = 0 := by
  refine ⟨?_, ?_, ?_, ?_, ?_, ?_, rfl, rfl⟩ <;>
    simp [rlStep, xhrLoadIncrement, xhrReadyStateIncrement, fetchIncrement,
      consoleErrorIncrement, incrementRateLimit, h]

/-- Witness for the C8 transition table at counter 7 and status 200. -/
theorem rate_limit_counter_transitions_witness :
    (200 : Nat) ≠ 429
    ∧ rlStep 7 (RlEvent.xhrResponse 429) = 7 + 2
    ∧ rlStep 7 (RlEvent.xhrResponse 200) = 7 :=
  ⟨by decide,
   (rate_limit_counter_transitions 7 200 (by decide)).1,
   (rate_limit_counter_transitions 7 200 (by decide)).2.2.2.1⟩

/-- The partial update used in the frame witness for `updateFileStatus`. -/
def c10u : FileUpdates where
  status := some Status.completed

/-- The store entry used in the frame witness for `updateFileStatus`. -/
def c10f : UploadFile :=
  newUploadFile ⟨"w.txt", 3, 4, "t"⟩

/-- C10: `updateFileStatus` is `files.map`: it keeps the length and order
of the list, rewrites exactly the entries whose id equals the given id by
merging the partial update, returns every other entry unchanged, and is
the identity when no entry carries the id. -/
theorem updateFileStatus_frame (files : List UploadFile) (tid : String)
    (u : FileUpdates) :
    (updateFileStatus files tid u).length = files.length
    ∧ (∀ (j : Nat), (updateFileStatus files tid u)[j]?
        = (files[j]?).map fun f => if f.id = tid then applyUpdates f u else f)
    ∧ (∀ (j : Nat) (f : UploadFile), files[j]? = some f → ¬ f.id = tid →
        (updateFileStatus files tid u)[j]? = some f)
    ∧ ((∀ f ∈ files, ¬ f.id = tid) → updateFileStatus files tid u = files) := by
  refine ⟨List.length_map _ _, ?_, ?_, ?_⟩
  · intro j
    unfold updateFileStatus
    rw [List.getElem?_map]
  · intro j f hj hne
    unfold updateFileStatus
    rw [List.getElem?_map, hj, Option.map_some', if_neg hne]
  · intro hall
    unfold updateFileStatus
    have hmap : files.map (fun f => if f.id = tid then applyUpdates f u else f)
        = files.map (fun f => f) := by
      apply List.map_congr_left
      intro f hf
      rw [if_neg (hall f hf)]
    rw [hmap]
    simp

/-- Witness for the frame of `updateFileStatus`: an entry whose id does
not match is returned unchanged, and a store with no matching id is left
whole. -/
theorem updateFileStatus_frame_witness :
    ([c10f] : List UploadFile)[0]? = some c10f
    ∧ ¬ c10f.id = "zzz"
    ∧ (updateFileStatus [c10f] "zzz" c10u)[0]? = some c10f
    ∧ updateFileStatus [c10f] "zzz" c10u = [c10f] :=
  ⟨rfl, by decide,
   (updateFileStatus_frame [c10f] "zzz" c10u).2.2.1 0 c10f rfl (by decide),
   (updateFileStatus_frame [c10f] "zzz" c10u).2.2.2 (by decide)⟩

end ContentfulUpload
